/-
Verification of the easycit citation engine (src/easycit/cli.py).

The core of the program is `generate_citation`: it maps webpage metadata
(any subset of url / title / author / publisher / date_published), a style
name and two suppression flags to a punctuation-normalized citation string,
bundled in a `CitationMetaData` record.  This file gives a shallow embedding
of that function and of the surrounding helpers (`get_citation_metadata`'s
override application, `get_webpage_details`' date handling), and proves or
refutes the specification claims about them.

Modelling conventions:
* Python optional string fields become `Option String`; Python truthiness of
  such a field (`if website_metadata.author:`) is `truthy`, and f-string
  interpolation of a possibly-`None` field is `pystr` (rendering `None` as
  the literal text "None", as Python does).
* The two calls to `datetime.today()` in the source (line 352 for
  `date_accessed`, line 402 inside the IEEE branch) are modelled by two
  explicit `Date` parameters `today1` and `today2`: each parameter is the
  value returned by the corresponding call, in source order.
* `re.sub(r"\s+", " ", ·)`, `re.sub(r"([,\.])\1+", r"\1", ·)` and
  `re.sub(r"\s([,\.])", r"\1", ·)` are modelled by the character-list scans
  `collapseWs`, `collapsePunct` and `dwbp`; `str.strip()` is `trimL`.  The
  whitespace class is the Unicode whitespace set shared by Python's `\s`
  and `str.strip`.
* `str.lower()` is modelled by ASCII case folding (`pyLower`); all style
  names involved are ASCII.
-/
import Mathlib

namespace Easycit

/-! ### Character classes -/

/-- The whitespace characters matched by Python's `\s` regex class and
stripped by `str.strip()`. -/
def wsChars : List Char :=
  [' ', '\t', '\n', '\r', '\x0b', '\x0c',
   '\x1c', '\x1d', '\x1e', '\x1f', '\x85', '\xa0',
   '\u1680', '\u2000', '\u2001', '\u2002', '\u2003', '\u2004', '\u2005',
   '\u2006', '\u2007', '\u2008', '\u2009', '\u200a',
   '\u2028', '\u2029', '\u202f', '\u205f', '\u3000']

/-- Is `c` whitespace (in the sense of Python's `\s` / `str.strip`)? -/
def isWsC (c : Char) : Bool := wsChars.contains c

/-- The punctuation class `[,\.]` of the two punctuation regexes. -/
def isPunctC (c : Char) : Bool := c == ',' || c == '.'

/-- ASCII case folding, as `str.lower()` acts on ASCII letters. -/
def lowerChar (c : Char) : Char :=
  if 'A' ≤ c ∧ c ≤ 'Z' then Char.ofNat (c.toNat + 32) else c

/-- `str.lower()` (ASCII model). -/
def pyLower (s : String) : String := ⟨s.data.map lowerChar⟩

/-! ### The post-processing normalization (cli.py lines 416-419)

The source computes
`citation = " ".join(part for part in citation_parts if part).strip()`
and then applies the three `re.sub` rewrites in order. -/

/-- `str.strip()`: drop leading and trailing whitespace. -/
def trimL (l : List Char) : List Char :=
  ((l.dropWhile isWsC).reverse.dropWhile isWsC).reverse

/-- Scan for `re.sub(r"\s+", " ", ·)`: each maximal whitespace run becomes a
single `' '`.  The flag records whether the previous character was part of a
whitespace run whose single `' '` has already been emitted. -/
def cwGo : Bool → List Char → List Char
  | _, [] => []
  | prevWs, c :: rest =>
    if isWsC c then
      if prevWs then cwGo true rest else ' ' :: cwGo true rest
    else c :: cwGo false rest

/-- `re.sub(r"\s+", " ", ·)`. -/
def collapseWs (l : List Char) : List Char := cwGo false l

/-- Scan for `re.sub(r"([,\.])\1+", r"\1", ·)`: a `,` or `.` equal to the
previous (kept) character is dropped, so each maximal run of one identical
punctuation character keeps exactly its first element. -/
def cpGo (prev : Char) : List Char → List Char
  | [] => []
  | c :: rest => if isPunctC c && c == prev then cpGo prev rest else c :: cpGo c rest

/-- `re.sub(r"([,\.])\1+", r"\1", ·)`. -/
def collapsePunct : List Char → List Char
  | [] => []
  | c :: rest => c :: cpGo c rest

/-- `re.sub(r"\s([,\.])", r"\1", ·)`: a whitespace character immediately
followed by `,` or `.` is removed (the match cannot overlap with another,
since `,`/`.` are not whitespace). -/
def dwbp : List Char → List Char
  | [] => []
  | [c] => [c]
  | a :: b :: rest => if isWsC a && isPunctC b then dwbp (b :: rest) else a :: dwbp (b :: rest)

/-- The full post-processing of cli.py lines 416-419 applied to the joined
clause string: strip, collapse whitespace runs, collapse doubled `,`/`.`,
drop whitespace before `,`/`.`. -/
def normalizeL (l : List Char) : List Char :=
  dwbp (collapsePunct (collapseWs (trimL l)))

/-- `" ".join`: single spaces between the given chunks. -/
def joinSp : List (List Char) → List Char
  | [] => []
  | [p] => p
  | p :: q :: ps => p ++ ' ' :: joinSp (q :: ps)

/-- `" ".join(part for part in citation_parts if part)`: drop falsy (empty)
parts, then join with single spaces. -/
def joinedParts (parts : List (List Char)) : List Char :=
  joinSp (parts.filter (fun p => !p.isEmpty))

/-! ### Dates and `strftime` renderings -/

/-- A calendar date, as far as the used `strftime` formats observe it. -/
structure Date where
  day : Nat
  month : Nat
  year : Nat
deriving DecidableEq

def digitChars : List Char := ['0', '1', '2', '3', '4', '5', '6', '7', '8', '9']

def digitChar (d : Nat) : Char := digitChars.getD d '0'

/-- `%d`: the day zero-padded to two digits (days are 1..31). -/
def pad2L (n : Nat) : List Char := [digitChar (n / 10 % 10), digitChar (n % 10)]

/-- `%Y`: the year zero-padded to four digits (years are 1..9999). -/
def year4L (y : Nat) : List Char :=
  [digitChar (y / 1000 % 10), digitChar (y / 100 % 10), digitChar (y / 10 % 10),
   digitChar (y % 10)]

def monthNames : List String :=
  ["January", "February", "March", "April", "May", "June", "July",
   "August", "September", "October", "November", "December"]

def monthAbbrs : List String :=
  ["Jan", "Feb", "Mar", "Apr", "May", "Jun", "Jul", "Aug", "Sep", "Oct", "Nov", "Dec"]

/-- `%B`, the full month name. -/
def monthNameL (m : Nat) : List Char := (monthNames.getD (m - 1) "").data

/-- `%b`, the abbreviated month name. -/
def monthAbbrL (m : Nat) : List Char := (monthAbbrs.getD (m - 1) "").data

/-- `strftime("%d %B %Y")`, e.g. "05 March 2024". -/
def fmtLongL (t : Date) : List Char :=
  pad2L t.day ++ ' ' :: (monthNameL t.month ++ ' ' :: year4L t.year)

/-- `strftime("%d-%b-%Y")`, e.g. "05-Mar-2024". -/
def fmtDashL (t : Date) : List Char :=
  pad2L t.day ++ '-' :: (monthAbbrL t.month ++ '-' :: year4L t.year)

/-- `strftime("%d %b. %Y")`, e.g. "05 Mar. 2021". -/
def fmtAbbrDotL (t : Date) : List Char :=
  pad2L t.day ++ ' ' :: (monthAbbrL t.month ++ '.' :: ' ' :: year4L t.year)

def fmtLong (t : Date) : String := ⟨fmtLongL t⟩

def fmtAbbrDot (t : Date) : String := ⟨fmtAbbrDotL t⟩

/-! ### Data model -/

/-- The `WebPageDetails` dataclass. -/
structure WebPageDetails where
  url : Option String := none
  title : Option String := none
  author : Option String := none
  publisher : Option String := none
  date_published : Option String := none
deriving DecidableEq

/-- The `CitationMetaData` dataclass (`date_accessed` holds the formatted
string produced at line 352, or `None`). -/
structure CitationMetaData where
  citation : Option String := none
  format_type : Option String := none
  url : Option String := none
  title : Option String := none
  author : Option String := none
  publisher : Option String := none
  date_published : Option String := none
  date_accessed : Option String := none
deriving DecidableEq

/-- `generate_citation` returns a `CitationMetaData` on the five supported
styles but returns a bare string (line 414) on an unsupported style. -/
inductive GenResult where
  | str (s : String)
  | record (m : CitationMetaData)
deriving DecidableEq

/-- Python truthiness of an optional string field: present and non-empty. -/
def truthy : Option String → Bool
  | some s => !s.data.isEmpty
  | none => false

/-- f-string interpolation of a possibly-`None` field: `None` renders as the
literal text "None". -/
def pystr : Option String → List Char
  | some s => s.data
  | none => "None".data

/-- A conditionally appended clause: `if cond: citation_parts.append(part)`. -/
def optIf (b : Bool) (part : List Char) : List (List Char) :=
  if b then [part] else []

/-- The fixed sentinel returned for an unsupported style (cli.py line 414). -/
def sentinel : String :=
  "Unsupported format. Please use one of the following: apa, mla, chicago, IEEE, Harvard."

/-- Build the returned `CitationMetaData` (cli.py lines 416-430): join the
truthy parts with spaces, strip, run the three `re.sub` rewrites, and carry
the webpage metadata fields through unchanged. -/
def finishCitation (wm : WebPageDetails) (fmt : String) (date_accessed : Option String)
    (parts : List (List Char)) : GenResult :=
  GenResult.record
    { citation := some ⟨normalizeL (joinedParts parts)⟩
      format_type := some fmt
      url := wm.url
      title := wm.title
      author := wm.author
      publisher := wm.publisher
      date_published := wm.date_published
      date_accessed := date_accessed }

/-- `generate_citation` (cli.py lines 338-430).  `today1` is the value of the
`datetime.today()` call at line 352, `today2` the value of the separate
`datetime.today()` call at line 402 in the IEEE branch. -/
def generate_citation (wm : WebPageDetails) (fmt : String) (no_date no_url : Bool)
    (today1 today2 : Date) : GenResult :=
  let date_accessed : Option String := if !no_date then some (fmtLong today1) else none
  if pyLower fmt = "apa" then
    finishCitation wm fmt date_accessed
      (optIf (truthy wm.author) (pystr wm.author)
        ++ ["(n.d.).".data]
        ++ optIf (truthy wm.title) (pystr wm.title ++ ".".data)
        ++ optIf (truthy wm.publisher) (pystr wm.publisher ++ ".".data)
        ++ optIf (truthy date_accessed) ("Retrieved ".data ++ pystr date_accessed)
        ++ optIf (!no_url) ("from ".data ++ pystr wm.url))
  else if pyLower fmt = "mla" then
    finishCitation wm fmt date_accessed
      (optIf (truthy wm.author) (pystr wm.author ++ ".".data)
        ++ optIf (truthy wm.title) ('"' :: pystr wm.title ++ ".\"".data)
        ++ optIf (truthy wm.publisher) (pystr wm.publisher)
        ++ optIf (!no_url) (pystr wm.url)
        ++ optIf (truthy date_accessed) ("Accessed ".data ++ pystr date_accessed ++ ".".data))
  else if pyLower fmt = "chicago" then
    finishCitation wm fmt date_accessed
      (optIf (truthy wm.author) (pystr wm.author ++ ".".data)
        ++ optIf (truthy wm.title) ('"' :: pystr wm.title ++ ".\"".data)
        ++ optIf (truthy wm.publisher) (pystr wm.publisher ++ ".".data)
        ++ optIf (truthy date_accessed) ("Accessed ".data ++ pystr date_accessed ++ ".".data)
        ++ optIf (!no_url) (pystr wm.url ++ ".".data))
  else if pyLower fmt = "ieee" then
    finishCitation wm fmt date_accessed
      (optIf (truthy wm.author) (pystr wm.author ++ ",".data)
        ++ optIf (truthy wm.title) ('"' :: pystr wm.title ++ ",\"".data)
        ++ optIf (truthy wm.publisher) (pystr wm.publisher ++ ".".data)
        ++ ["[Online].".data]
        ++ optIf (!no_url) ("Available: ".data ++ pystr wm.url)
        ++ optIf (truthy date_accessed) ("[Accessed: ".data ++ fmtDashL today2 ++ "]".data))
  else if pyLower fmt = "harvard" then
    finishCitation wm fmt date_accessed
      (optIf (truthy wm.author) (pystr wm.author ++ ",".data)
        ++ optIf (truthy wm.title) (pystr wm.title ++ ".".data)
        ++ optIf (!no_url) ("Available at: ".data ++ pystr wm.url)
        ++ optIf (truthy date_accessed) ("(Accessed: ".data ++ pystr date_accessed ++ ")".data))
  else GenResult.str sentinel

/-- Project the citation text out of either kind of return value. -/
def resultCitation : GenResult → Option String
  | .str s => some s
  | .record m => m.citation

/-! ### Override application (cli.py lines 273-280) -/

/-- The override-merging part of `get_citation_metadata`: the dict of
overrides is modelled as a lookup function (`ov k = some v` iff key `k` is
present with value `v`). -/
def apply_overrides (wm : WebPageDetails) (ov : String → Option String) : WebPageDetails :=
  let wm1 := match ov "author" with
    | some v => { wm with author := some v }
    | none => wm
  let wm2 := match ov "title" with
    | some v => { wm1 with title := some v }
    | none => wm1
  let wm3 := match ov "publisher" with
    | some v => { wm2 with publisher := some v }
    | none => wm2
  match ov "pub_date" with
  | some v => { wm3 with date_published := some v }
  | none => wm3

/-- `get_citation_metadata` downstream of webpage resolution: the resolved
`WebPageDetails` is taken as input, overrides are merged, and the result is
formatted. -/
def get_citation_metadata (wm : WebPageDetails) (fmt : String) (no_date no_url : Bool)
    (ov : String → Option String) (t1 t2 : Date) : GenResult :=
  generate_citation (apply_overrides wm ov) fmt no_date no_url t1 t2

/-! ### Webpage detail extraction (cli.py lines 285-335)

The HTTP fetch and HTML parsing are external; they are modelled as an
`Option PageData` input (`none` = the fetch or parse itself raised).  The
date-string handling — `strip`, `strptime("%Y-%m-%d")`, re-rendering with
`strftime("%d %b. %Y")`, and the blanket `except Exception` that returns an
all-empty `WebPageDetails()` when `strptime` raises — is modelled exactly. -/

/-- The raw strings BeautifulSoup extraction yields for the four metadata
sources (each `none` when the corresponding tag/attribute is missing). -/
structure PageData where
  title : Option String := none
  author : Option String := none
  dateContent : Option String := none
  publisher : Option String := none
deriving DecidableEq

/-- `str.strip()` at `String` level. -/
def pyStrip (s : String) : String := ⟨trimL s.data⟩

def isLeap (y : Nat) : Bool := (y % 4 == 0 && y % 100 != 0) || y % 400 == 0

def daysInMonth (y m : Nat) : Nat :=
  if m == 2 then (if isLeap y then 29 else 28)
  else if m == 4 || m == 6 || m == 9 || m == 11 then 30 else 31

/-- Split a character list on `'-'`. -/
def splitDash : List Char → List (List Char)
  | [] => [[]]
  | c :: rest =>
    if c == '-' then [] :: splitDash rest
    else match splitDash rest with
      | [] => [[c]]
      | h :: t => (c :: h) :: t

def allDigits (l : List Char) : Bool := l.all (fun c => digitChars.contains c)

def digitVal (c : Char) : Nat := c.toNat - 48

def digitsVal (l : List Char) : Nat := l.foldl (fun acc c => 10 * acc + digitVal c) 0

/-- `datetime.strptime(s, "%Y-%m-%d")`: exactly three dash-separated digit
groups — a four-digit year (1..9999, year 0 is rejected), a one- or
two-digit month 1..12, and a one- or two-digit day valid for that month and
year.  Returns `none` where `strptime` raises `ValueError`. -/
def parseISO (l : List Char) : Option Date :=
  match splitDash l with
  | [ys, ms, ds] =>
    if allDigits ys && ys.length == 4
        && allDigits ms && (ms.length == 1 || ms.length == 2)
        && allDigits ds && (ds.length == 1 || ds.length == 2) then
      let y := digitsVal ys
      let m := digitsVal ms
      let d := digitsVal ds
      if 1 ≤ y && 1 ≤ m && m ≤ 12 && 1 ≤ d && d ≤ daysInMonth y m then
        some ⟨d, m, y⟩
      else none
    else none
  | _ => none

/-- `get_webpage_details`: on any raised exception — including the
`ValueError` from `strptime` on an unparsable date — the blanket
`except Exception` returns the all-empty `WebPageDetails()`. -/
def get_webpage_details (url : String) (page : Option PageData) : WebPageDetails :=
  match page with
  | none => {}
  | some p =>
    match p.dateContent with
    | none =>
      { url := some url
        title := p.title.map pyStrip
        author := p.author.map pyStrip
        publisher := p.publisher.map pyStrip
        date_published := none }
    | some raw =>
      match parseISO (trimL raw.data) with
      | some t =>
        { url := some url
          title := p.title.map pyStrip
          author := p.author.map pyStrip
          publisher := p.publisher.map pyStrip
          date_published := some (fmtAbbrDot t) }
      | none => {}

/-! ### Generic word/occurrence utilities

`w <:+: l` is "the word `w` occurs as a contiguous substring of `l`".
The lemmas below let occurrences be pushed through and pulled back across
the concatenations and text rewrites used by the citation builder. -/

/-- Splitting a prefix of a concatenation: either it is a prefix of the
left chunk, or it is the left chunk followed by a prefix of the right. -/
theorem pre_append_split {w x y : List Char} (h : w <+: x ++ y) :
    w <+: x ∨ ∃ w2, w = x ++ w2 ∧ w2 <+: y := by
  induction x generalizing w with
  | nil => exact Or.inr ⟨w, rfl, by simpa using h⟩
  | cons a x ih =>
    rcases w with _ | ⟨b, w'⟩
    · exact Or.inl (List.nil_prefix)
    · obtain ⟨rfl, hw'⟩ := List.cons_prefix_cons.mp h
      rcases ih hw' with h1 | ⟨w2, rfl, hw2⟩
      · exact Or.inl (List.cons_prefix_cons.mpr ⟨rfl, h1⟩)
      · exact Or.inr ⟨w2, rfl, hw2⟩

/-- Splitting an occurrence across a concatenation: it lies in the left
chunk, in the right chunk, or spans the border with a nonempty suffix of
the left chunk and a nonempty prefix of the right chunk. -/
theorem occ_append_split {w x y : List Char} (h : w <:+: x ++ y) :
    w <:+: x ∨ w <:+: y ∨
      ∃ w1 w2, w1 ++ w2 = w ∧ w1 ≠ [] ∧ w2 ≠ [] ∧ w1 <:+ x ∧ w2 <+: y := by
  induction x generalizing w with
  | nil => exact Or.inr (Or.inl (by simpa using h))
  | cons a x ih =>
    rcases List.infix_cons_iff.mp h with hp | hinf
    · rcases w with _ | ⟨b, w'⟩
      · exact Or.inl List.nil_infix
      · obtain ⟨rfl, hw'⟩ := List.cons_prefix_cons.mp hp
        rcases pre_append_split hw' with h1 | ⟨w2, rfl, hw2⟩
        · exact Or.inl (List.cons_prefix_cons.mpr ⟨rfl, h1⟩).isInfix
        · rcases w2 with _ | ⟨c, w2'⟩
          · rw [List.append_nil]
            exact Or.inl (List.infix_refl _)
          · exact Or.inr (Or.inr
              ⟨b :: x, c :: w2', rfl, by simp, by simp, List.suffix_refl _, hw2⟩)
    · rcases ih hinf with h1 | h1 | ⟨w1, w2, hw, h1ne, h2ne, hs, hp2⟩
      · exact Or.inl (List.infix_cons h1)
      · exact Or.inr (Or.inl h1)
      · exact Or.inr (Or.inr ⟨w1, w2, hw, h1ne, h2ne, hs.trans (List.suffix_cons a x), hp2⟩)

/-- A nonempty word does not occur in the empty string. -/
theorem notin_nil {w : List Char} (hne : w ≠ []) : ¬ w <:+: ([] : List Char) := by
  intro h
  exact hne (List.eq_nil_of_infix_nil h)

/-- Push an occurrence into the right part of a concatenation. -/
theorem occ_append_right {w x y : List Char} (h : w <:+: y) : w <:+: x ++ y :=
  h.trans (List.suffix_append x y).isInfix

/-- Push an occurrence into the left part of a concatenation. -/
theorem occ_append_left {w x y : List Char} (h : w <:+: x) : w <:+: x ++ y :=
  h.trans (List.prefix_append x y).isInfix

/-- A word cannot occur in a concatenation when it occurs in neither chunk
and some character of the right chunk's head is not a character of the
word (which rules out any spanning occurrence). -/
theorem notin_append_right_block {w x y : List Char}
    (hx : ¬ w <:+: x) (hy : ¬ w <:+: y)
    (hblock : ∀ c, y.head? = some c → c ∉ w) :
    ¬ w <:+: x ++ y := by
  intro h
  rcases occ_append_split h with h1 | h1 | ⟨w1, w2, hw, h1ne, h2ne, _, hpre⟩
  · exact hx h1
  · exact hy h1
  · obtain ⟨t, rfl⟩ := hpre
    rcases w2 with _ | ⟨c, w2'⟩
    · exact h2ne rfl
    · refine hblock c rfl ?_
      rw [← hw]
      exact List.mem_append_right _ (List.mem_cons_self c w2')

/-- A word cannot occur in a concatenation when it occurs in neither chunk
and the left chunk's last character is not a character of the word. -/
theorem notin_append_left_block {w x y : List Char}
    (hx : ¬ w <:+: x) (hy : ¬ w <:+: y)
    (hblock : ∀ c, x.getLast? = some c → c ∉ w) :
    ¬ w <:+: x ++ y := by
  intro h
  rcases occ_append_split h with h1 | h1 | ⟨w1, w2, hw, h1ne, h2ne, hsuf, _⟩
  · exact hx h1
  · exact hy h1
  · obtain ⟨u, rfl⟩ := hsuf
    have hlast : (u ++ w1).getLast? = w1.getLast? := List.getLast?_append_of_ne_nil u h1ne
    obtain ⟨c, hc⟩ : ∃ c, w1.getLast? = some c := by
      rcases w1 with _ | ⟨d, w1'⟩
      · exact absurd rfl h1ne
      · exact ⟨_, List.getLast?_cons⟩
    refine hblock c (hlast.trans hc) ?_
    rw [← hw]
    exact List.mem_append_left _ (List.mem_of_mem_getLast? hc)

/-- A word with a character missing from a character-restricted string does
not occur in it. -/
theorem notin_of_missing_char {w l : List Char} {c : Char}
    (hc : c ∈ w) (hl : c ∉ l) : ¬ w <:+: l := by
  intro h
  exact hl (h.subset hc)

/-- Prepending a character not belonging to the word preserves
non-occurrence. -/
theorem notin_cons_notmem {w l : List Char} {a : Char}
    (ha : a ∉ w) (hl : ¬ w <:+: l) (hne : w ≠ []) : ¬ w <:+: a :: l := by
  intro h
  rcases List.infix_cons_iff.mp h with hp | hinf
  · rcases w with _ | ⟨b, w'⟩
    · exact hne rfl
    · obtain ⟨rfl, _⟩ := List.cons_prefix_cons.mp hp
      exact ha (List.mem_cons_self _ _)
  · exact hl hinf

/-! ### Word-shape predicates -/

/-- Does the string start with `,` or `.`? -/
def headPunct (l : List Char) : Bool := l.head?.any isPunctC

/-- Does the string start with whitespace? -/
def headWs (l : List Char) : Bool := l.head?.any isWsC

/-- Does the string end with whitespace? -/
def lastWs (l : List Char) : Bool := l.getLast?.any isWsC

/-- Does the string start with the character `a`? -/
def headIs (a : Char) (l : List Char) : Bool := l.head?.any (fun c => a == c)

/-- No whitespace characters at all. -/
def wsfreeB (l : List Char) : Bool := l.all (fun c => !isWsC c)

/-- No `,`/`.` characters at all. -/
def punctfreeB (l : List Char) : Bool := l.all (fun c => !isPunctC c)

/-- Every whitespace character is a plain `' '`. -/
def spaceOnlyB (l : List Char) : Bool := l.all (fun c => !isWsC c || c == ' ')

/-- No whitespace character immediately followed by `,` or `.`. -/
def noWspB : List Char → Bool
  | a :: b :: r => !(isWsC a && isPunctC b) && noWspB (b :: r)
  | _ => true

/-- No two adjacent identical `,`/`.` characters. -/
def noDoubledB : List Char → Bool
  | a :: b :: r => !(isPunctC a && a == b) && noDoubledB (b :: r)
  | _ => true

/-- No two adjacent whitespace characters. -/
def noWWB : List Char → Bool
  | a :: b :: r => !(isWsC a && isWsC b) && noWWB (b :: r)
  | _ => true

theorem punct_not_ws {c : Char} (h : isPunctC c = true) : isWsC c = false := by
  rcases (by simpa [isPunctC] using h : c = ',' ∨ c = '.') with rfl | rfl <;> decide

theorem wsfree_not_mem {w : List Char} {c : Char} (hw : wsfreeB w = true)
    (hc : isWsC c = true) : c ∉ w := by
  intro hmem
  have := List.all_eq_true.mp hw c hmem
  simp [hc] at this

theorem punctfree_not_mem {w : List Char} {c : Char} (hw : punctfreeB w = true)
    (hc : isPunctC c = true) : c ∉ w := by
  intro hmem
  have := List.all_eq_true.mp hw c hmem
  simp [hc] at this

theorem headPunct_of_punctfree {w : List Char} (h : punctfreeB w = true) :
    headPunct w = false := by
  cases w with
  | nil => rfl
  | cons c r =>
    have := List.all_eq_true.mp h c (List.mem_cons_self c r)
    simpa [headPunct] using by simpa using this

theorem headWs_of_wsfree {w : List Char} (h : wsfreeB w = true) : headWs w = false := by
  cases w with
  | nil => rfl
  | cons c r =>
    have := List.all_eq_true.mp h c (List.mem_cons_self c r)
    simpa [headWs] using by simpa using this

theorem lastWs_of_wsfree {w : List Char} (h : wsfreeB w = true) : lastWs w = false := by
  rcases hl : w.getLast? with _ | c
  · simp [lastWs, hl]
  · have := List.all_eq_true.mp h c (List.mem_of_mem_getLast? hl)
    simpa [lastWs, hl] using by simpa using this

theorem noWspB_cons (a : Char) (l : List Char) :
    noWspB (a :: l) = (!(isWsC a && headPunct l) && noWspB l) := by
  cases l <;> simp [noWspB, headPunct]

theorem noDoubledB_cons (a : Char) (l : List Char) :
    noDoubledB (a :: l) = (!(isPunctC a && headIs a l) && noDoubledB l) := by
  cases l <;> simp [noDoubledB, headIs]

theorem noWWB_cons (a : Char) (l : List Char) :
    noWWB (a :: l) = (!(isWsC a && headWs l) && noWWB l) := by
  cases l <;> simp [noWWB, headWs]

theorem noWspB_tail {a : Char} {l : List Char} (h : noWspB (a :: l) = true) :
    noWspB l = true := by
  rw [noWspB_cons] at h
  exact (Bool.and_eq_true_iff.mp h).2

theorem noDoubledB_tail {a : Char} {l : List Char} (h : noDoubledB (a :: l) = true) :
    noDoubledB l = true := by
  rw [noDoubledB_cons] at h
  exact (Bool.and_eq_true_iff.mp h).2

theorem noWWB_tail {a : Char} {l : List Char} (h : noWWB (a :: l) = true) :
    noWWB l = true := by
  rw [noWWB_cons] at h
  exact (Bool.and_eq_true_iff.mp h).2

theorem noWspB_of_wsfree {l : List Char} (h : wsfreeB l = true) : noWspB l = true := by
  induction l with
  | nil => rfl
  | cons a l ih =>
    rw [noWspB_cons]
    have ha : isWsC a = false := by
      have := List.all_eq_true.mp h a (List.mem_cons_self a l)
      simpa using this
    have hl : wsfreeB l = true := by
      rw [wsfreeB, List.all_eq_true]
      intro c hc
      exact List.all_eq_true.mp h c (List.mem_cons_of_mem a hc)
    simp [ha, ih hl]

/-- A true `noWspB` scan rules out any whitespace-then-punctuation pair. -/
theorem noWsp_pair {l : List Char} (h : noWspB l = true) {a b : Char}
    (ha : isWsC a = true) (hb : isPunctC b = true) : ¬ ([a, b] <:+: l) := by
  induction l with
  | nil => exact notin_nil (by simp)
  | cons c r ih =>
    intro hocc
    rcases List.infix_cons_iff.mp hocc with hp | hinf
    · obtain ⟨rfl, hb'⟩ := List.cons_prefix_cons.mp hp
      rcases r with _ | ⟨d, r'⟩
      · simp at hb'
      · obtain ⟨rfl, _⟩ := List.cons_prefix_cons.mp hb'
        simp [noWspB, ha, hb] at h
    · exact ih (noWspB_tail h) hinf

/-- A false `noWspB` scan exhibits a whitespace-then-punctuation pair. -/
theorem noWspB_false_pair {l : List Char} (h : noWspB l = false) :
    ∃ a b, isWsC a = true ∧ isPunctC b = true ∧ [a, b] <:+: l := by
  induction l with
  | nil => simp [noWspB] at h
  | cons c r ih =>
    rw [noWspB_cons] at h
    rcases Bool.and_eq_false_iff.mp h with h1 | h1
    · have h2 : (isWsC c && headPunct r) = true := by
        cases hcc : (isWsC c && headPunct r) <;> simp [hcc] at h1 ⊢
      obtain ⟨hc, hr⟩ := Bool.and_eq_true_iff.mp h2
      rcases r with _ | ⟨d, r'⟩
      · simp [headPunct] at hr
      · refine ⟨c, d, hc, by simpa [headPunct] using hr, ?_⟩
        exact (List.cons_prefix_cons.mpr
          ⟨rfl, List.cons_prefix_cons.mpr ⟨rfl, List.nil_prefix⟩⟩).isInfix
    · obtain ⟨a, b, ha, hb, hocc⟩ := ih h1
      exact ⟨a, b, ha, hb, List.infix_cons hocc⟩

/-- `noWspB` is inherited by substrings. -/
theorem noWspB_infix_closed {w l : List Char} (hl : noWspB l = true) (h : w <:+: l) :
    noWspB w = true := by
  by_contra hw
  obtain ⟨a, b, ha, hb, hocc⟩ := noWspB_false_pair (Bool.eq_false_iff.mpr hw)
  exact noWsp_pair hl ha hb (hocc.trans h)

/-- A true `noDoubledB` scan rules out any doubled `,`/`.` pair. -/
theorem noDoubled_pair {l : List Char} (h : noDoubledB l = true) {c : Char}
    (hc : isPunctC c = true) : ¬ ([c, c] <:+: l) := by
  induction l with
  | nil => exact notin_nil (by simp)
  | cons a r ih =>
    intro hocc
    rcases List.infix_cons_iff.mp hocc with hp | hinf
    · obtain ⟨rfl, hb'⟩ := List.cons_prefix_cons.mp hp
      rcases r with _ | ⟨d, r'⟩
      · simp at hb'
      · obtain ⟨rfl, _⟩ := List.cons_prefix_cons.mp hb'
        simp [noDoubledB, hc] at h
    · exact ih (noDoubledB_tail h) hinf

/-! ### Pulling occurrences back through the normalization

For a word without whitespace and without `,`/`.`, an occurrence in the
output of any normalization stage pulls back to an occurrence in the
stage's input: every character such a word consists of is kept verbatim by
every stage, and the characters a stage deletes sit next to a character of
their own class, so they cannot vanish from between two characters of the
word. -/

theorem wsfreeB_tail {a : Char} {w : List Char} (h : wsfreeB (a :: w) = true) :
    wsfreeB w = true := by
  simp only [wsfreeB, List.all_cons, Bool.and_eq_true] at h
  exact h.2

theorem wsfreeB_head {a : Char} {w : List Char} (h : wsfreeB (a :: w) = true) :
    isWsC a = false := by
  simp only [wsfreeB, List.all_cons, Bool.and_eq_true] at h
  simpa using h.1

theorem punctfreeB_tail {a : Char} {w : List Char} (h : punctfreeB (a :: w) = true) :
    punctfreeB w = true := by
  simp only [punctfreeB, List.all_cons, Bool.and_eq_true] at h
  exact h.2

theorem punctfreeB_head {a : Char} {w : List Char} (h : punctfreeB (a :: w) = true) :
    isPunctC a = false := by
  simp only [punctfreeB, List.all_cons, Bool.and_eq_true] at h
  simpa using h.1

theorem cw_pref_pull : ∀ (l w : List Char), wsfreeB w = true →
    w <+: cwGo false l → w <+: l := by
  intro l
  induction l with
  | nil => intro w _ h; simpa [cwGo] using h
  | cons c r ih =>
    intro w hw h
    by_cases hc : isWsC c = true
    · rcases w with _ | ⟨b, w'⟩
      · exact List.nil_prefix
      · exfalso
        simp only [cwGo, hc, if_true] at h
        obtain ⟨rfl, _⟩ := List.cons_prefix_cons.mp h
        exact absurd (wsfreeB_head hw) (by decide)
    · simp only [cwGo, hc, Bool.false_eq_true, if_false] at h
      rcases w with _ | ⟨b, w'⟩
      · exact List.nil_prefix
      · obtain ⟨rfl, hw'⟩ := List.cons_prefix_cons.mp h
        exact List.cons_prefix_cons.mpr ⟨rfl, ih w' (wsfreeB_tail hw) hw'⟩

theorem cw_infix_pull : ∀ (l : List Char) (b : Bool) (w : List Char), wsfreeB w = true →
    w ≠ [] → w <:+: cwGo b l → w <:+: l := by
  intro l
  induction l with
  | nil =>
    intro b w _ hne h
    cases b <;> exact absurd (List.eq_nil_of_infix_nil (by simpa [cwGo] using h)) hne
  | cons c r ih =>
    intro b w hw hne h
    by_cases hc : isWsC c = true
    · cases b with
      | true =>
        simp only [cwGo, hc, if_true] at h
        exact List.infix_cons (ih true w hw hne h)
      | false =>
        simp only [cwGo, hc, if_true] at h
        rcases List.infix_cons_iff.mp h with hp | hinf
        · rcases w with _ | ⟨d, w'⟩
          · exact absurd rfl hne
          · obtain ⟨rfl, _⟩ := List.cons_prefix_cons.mp hp
            exact absurd (wsfreeB_head hw) (by decide)
        · exact List.infix_cons (ih true w hw hne hinf)
    · simp only [cwGo, hc, Bool.false_eq_true, if_false] at h
      rcases List.infix_cons_iff.mp h with hp | hinf
      · rcases w with _ | ⟨d, w'⟩
        · exact absurd rfl hne
        · obtain ⟨rfl, hw'⟩ := List.cons_prefix_cons.mp hp
          exact (List.cons_prefix_cons.mpr
            ⟨rfl, cw_pref_pull r w' (wsfreeB_tail hw) hw'⟩).isInfix
      · exact List.infix_cons (ih false w hw hne hinf)

theorem cpGo_keep_eq {prev c : Char} (r : List Char) (h : (isPunctC c && c == prev) = false) :
    cpGo prev (c :: r) = c :: cpGo c r := by
  simp [cpGo, h]

theorem cpGo_drop_cond {prev c : Char} (hprev : isPunctC prev = false) :
    (isPunctC c && c == prev) = false := by
  by_cases hc : (c == prev) = true
  · rw [eq_of_beq hc, hprev]
    rfl
  · simp [Bool.eq_false_iff.mpr hc]

theorem cp_pref_pull : ∀ (l : List Char) (prev : Char) (w : List Char),
    punctfreeB w = true → isPunctC prev = false → w <+: cpGo prev l → w <+: l := by
  intro l
  induction l with
  | nil => intro prev w _ _ h; simpa [cpGo] using h
  | cons c r ih =>
    intro prev w hw hprev h
    rw [cpGo_keep_eq r (cpGo_drop_cond hprev)] at h
    rcases w with _ | ⟨b, w'⟩
    · exact List.nil_prefix
    · obtain ⟨rfl, hw'⟩ := List.cons_prefix_cons.mp h
      exact List.cons_prefix_cons.mpr
        ⟨rfl, ih b w' (punctfreeB_tail hw) (punctfreeB_head hw) hw'⟩

theorem cp_infix_pull : ∀ (l : List Char) (prev : Char) (w : List Char),
    punctfreeB w = true → w ≠ [] → w <:+: cpGo prev l → w <:+: l := by
  intro l
  induction l with
  | nil =>
    intro prev w _ hne h
    exact absurd (List.eq_nil_of_infix_nil (by simpa [cpGo] using h)) hne
  | cons c r ih =>
    intro prev w hw hne h
    by_cases hcond : (isPunctC c && c == prev) = true
    · simp only [cpGo, hcond, if_true] at h
      exact List.infix_cons (ih prev w hw hne h)
    · rw [cpGo_keep_eq r (Bool.eq_false_iff.mpr hcond)] at h
      rcases List.infix_cons_iff.mp h with hp | hinf
      · rcases w with _ | ⟨b, w'⟩
        · exact absurd rfl hne
        · obtain ⟨rfl, hw'⟩ := List.cons_prefix_cons.mp hp
          exact (List.cons_prefix_cons.mpr
            ⟨rfl, cp_pref_pull r b w' (punctfreeB_tail hw) (punctfreeB_head hw) hw'⟩).isInfix
      · exact List.infix_cons (ih c w hw hne hinf)

theorem collapsePunct_pull {l w : List Char} (hw : punctfreeB w = true) (hne : w ≠ [])
    (h : w <:+: collapsePunct l) : w <:+: l := by
  cases l with
  | nil => exact absurd (List.eq_nil_of_infix_nil (by simpa [collapsePunct] using h)) hne
  | cons c r =>
    rcases List.infix_cons_iff.mp (by simpa [collapsePunct] using h) with hp | hinf
    · rcases w with _ | ⟨b, w'⟩
      · exact absurd rfl hne
      · obtain ⟨rfl, hw'⟩ := List.cons_prefix_cons.mp hp
        exact (List.cons_prefix_cons.mpr
          ⟨rfl, cp_pref_pull r b w' (punctfreeB_tail hw) (punctfreeB_head hw) hw'⟩).isInfix
    · exact List.infix_cons (cp_infix_pull r c w hw hne hinf)

theorem dwbp_head {b : Char} (r : List Char) (hb : isPunctC b = true) :
    (dwbp (b :: r)).head? = some b := by
  cases r with
  | nil => rfl
  | cons d r' => simp [dwbp, punct_not_ws hb]

theorem dwbp_pref_pull : ∀ (l w : List Char), punctfreeB w = true → wsfreeB w = true →
    w <+: dwbp l → w <+: l
  | [], w, _, _, h => by simpa [dwbp] using h
  | [c], w, _, _, h => by simpa [dwbp] using h
  | a :: b :: r, w, hwp, hws, h => by
    by_cases hab : (isWsC a && isPunctC b) = true
    · simp only [dwbp, hab, if_true] at h
      rcases w with _ | ⟨d, w'⟩
      · exact List.nil_prefix
      · exfalso
        have hb : isPunctC b = true := (Bool.and_eq_true_iff.mp hab).2
        obtain ⟨t, ht⟩ := h
        have : (dwbp (b :: r)).head? = some d := by
          rw [← ht]
          rfl
        rw [dwbp_head r hb] at this
        exact absurd (punctfreeB_head hwp) (by simp [← Option.some_inj.mp this, hb])
    · simp only [dwbp, hab, Bool.false_eq_true, if_false] at h
      rcases w with _ | ⟨d, w'⟩
      · exact List.nil_prefix
      · obtain ⟨rfl, hw'⟩ := List.cons_prefix_cons.mp h
        exact List.cons_prefix_cons.mpr
          ⟨rfl, dwbp_pref_pull (b :: r) w' (punctfreeB_tail hwp) (wsfreeB_tail hws) hw'⟩

theorem dwbp_infix_pull : ∀ (l w : List Char), punctfreeB w = true → wsfreeB w = true →
    w ≠ [] → w <:+: dwbp l → w <:+: l
  | [], w, _, _, hne, h => absurd (List.eq_nil_of_infix_nil (by simpa [dwbp] using h)) hne
  | [c], w, _, _, _, h => by simpa [dwbp] using h
  | a :: b :: r, w, hwp, hws, hne, h => by
    by_cases hab : (isWsC a && isPunctC b) = true
    · simp only [dwbp, hab, if_true] at h
      exact List.infix_cons (dwbp_infix_pull (b :: r) w hwp hws hne h)
    · simp only [dwbp, hab, Bool.false_eq_true, if_false] at h
      rcases List.infix_cons_iff.mp h with hp | hinf
      · rcases w with _ | ⟨d, w'⟩
        · exact absurd rfl hne
        · obtain ⟨rfl, hw'⟩ := List.cons_prefix_cons.mp hp
          exact (List.cons_prefix_cons.mpr
            ⟨rfl, dwbp_pref_pull (b :: r) w' (punctfreeB_tail hwp) (wsfreeB_tail hws) hw'⟩).isInfix
      · exact List.infix_cons (dwbp_infix_pull (b :: r) w hwp hws hne hinf)

theorem trimL_occ (l : List Char) : trimL l <:+: l := by
  have h1 : l.dropWhile isWsC <:+ l := List.dropWhile_suffix isWsC
  have h2 : ((l.dropWhile isWsC).reverse.dropWhile isWsC).reverse <+: l.dropWhile isWsC := by
    rw [← List.reverse_suffix]
    simpa using List.dropWhile_suffix (l := (l.dropWhile isWsC).reverse) isWsC
  exact h2.isInfix.trans h1.isInfix

/-- The main pullback: a nonempty word without whitespace and without
`,`/`.` occurs in the normalized string only if it occurs in the raw
string. -/
theorem normalizeL_pull {l w : List Char} (hwp : punctfreeB w = true)
    (hws : wsfreeB w = true) (hne : w ≠ []) (h : w <:+: normalizeL l) : w <:+: l := by
  rw [normalizeL] at h
  have h1 := dwbp_infix_pull _ w hwp hws hne h
  have h2 := collapsePunct_pull hwp hne h1
  have h3 := cw_infix_pull _ false w hws hne h2
  exact h3.trans (trimL_occ l)

/-! ### Pushing occurrences forward through the normalization

A "stable" word survives every normalization stage verbatim: it has no
character a stage deletes (given the neighbours recorded inside the word
itself), so any occurrence in the raw string is still an occurrence in the
normalized string. -/

/-- A word every occurrence of which survives the four-step normalization:
nonempty, not starting with `,`/`.` or whitespace, not ending in
whitespace, whitespace inside it only as single `' '` characters never
followed by `,`/`.`, and no doubled `,`/`.`. -/
def stableW (w : List Char) : Prop :=
  w ≠ [] ∧ headPunct w = false ∧ headWs w = false ∧ lastWs w = false ∧
    spaceOnlyB w = true ∧ noWWB w = true ∧ noWspB w = true ∧ noDoubledB w = true

instance (w : List Char) : Decidable (stableW w) := by
  unfold stableW
  infer_instance

theorem occ_dropWhile {w l : List Char} (hhead : headWs w = false) (hne : w ≠ [])
    (h : w <:+: l) : w <:+: l.dropWhile isWsC := by
  induction l with
  | nil => simpa using h
  | cons c r ih =>
    by_cases hc : isWsC c = true
    · rw [List.dropWhile_cons_of_pos (by simpa using hc)]
      rcases List.infix_cons_iff.mp h with hp | hinf
      · rcases w with _ | ⟨d, w'⟩
        · exact absurd rfl hne
        · obtain ⟨rfl, _⟩ := List.cons_prefix_cons.mp hp
          simp [headWs, hc] at hhead
      · exact ih hinf
    · rwa [List.dropWhile_cons_of_neg (by simpa using hc)]

theorem headWs_reverse (l : List Char) : headWs l.reverse = lastWs l := by
  simp [headWs, lastWs, List.head?_reverse]

theorem trim_surv {w l : List Char} (hhead : headWs w = false) (hlast : lastWs w = false)
    (hne : w ≠ []) (h : w <:+: l) : w <:+: trimL l := by
  have h1 : w <:+: l.dropWhile isWsC := occ_dropWhile hhead hne h
  have h2 : w.reverse <:+: (l.dropWhile isWsC).reverse := List.reverse_infix.mpr h1
  have h3 : w.reverse <:+: ((l.dropWhile isWsC).reverse).dropWhile isWsC :=
    occ_dropWhile (by rwa [headWs_reverse]) (by simpa using hne) h2
  have h4 : w.reverse <:+: (trimL l).reverse := by
    rw [trimL, List.reverse_reverse]
    exact h3
  exact List.reverse_infix.mp h4

theorem noWWB_head {a : Char} {w : List Char} (h : noWWB (a :: w) = true)
    (ha : isWsC a = true) : headWs w = false := by
  rw [noWWB_cons] at h
  obtain ⟨h1, _⟩ := Bool.and_eq_true_iff.mp h
  cases hw : headWs w
  · rfl
  · rw [ha, hw] at h1
    simp at h1

theorem spaceOnlyB_head {a : Char} {w : List Char} (h : spaceOnlyB (a :: w) = true)
    (ha : isWsC a = true) : a = ' ' := by
  have h0 := List.all_eq_true.mp h a (List.mem_cons_self a w)
  have h2 : isWsC a = false ∨ a = ' ' := by simpa using h0
  rcases h2 with h1 | h1
  · rw [ha] at h1
    cases h1
  · exact h1

theorem spaceOnlyB_tail {a : Char} {w : List Char} (h : spaceOnlyB (a :: w) = true) :
    spaceOnlyB w = true := by
  rw [spaceOnlyB, List.all_eq_true]
  intro c hc
  exact List.all_eq_true.mp h c (List.mem_cons_of_mem a hc)

theorem cw_keep : ∀ (w : List Char), noWWB w = true → spaceOnlyB w = true →
    ∀ (post : List Char) (b : Bool), b = false ∨ headWs w = false →
    ∃ b', cwGo b (w ++ post) = w ++ cwGo b' post := by
  intro w
  induction w with
  | nil => exact fun _ _ post b _ => ⟨b, rfl⟩
  | cons c w' ih =>
    intro hww hsp post b hb
    by_cases hc : isWsC c = true
    · have hbf : b = false := by
        rcases hb with hb | hb
        · exact hb
        · simp [headWs, hc] at hb
      subst hbf
      have hcsp : c = ' ' := spaceOnlyB_head hsp hc
      obtain ⟨b', hb'⟩ :=
        ih (noWWB_tail hww) (spaceOnlyB_tail hsp) post true (Or.inr (noWWB_head hww hc))
      refine ⟨b', ?_⟩
      rw [List.cons_append]
      simp only [cwGo, hc, if_true]
      rw [hb', hcsp]
      rfl
    · obtain ⟨b', hb'⟩ :=
        ih (noWWB_tail hww) (spaceOnlyB_tail hsp) post false (Or.inl rfl)
      refine ⟨b', ?_⟩
      rw [List.cons_append]
      simp only [cwGo, hc, Bool.false_eq_true, if_false]
      rw [hb']
      rfl

theorem cw_surv {w : List Char} (hww : noWWB w = true) (hsp : spaceOnlyB w = true)
    (hhead : headWs w = false) (hne : w ≠ []) :
    ∀ (l : List Char) (b : Bool), w <:+: l → w <:+: cwGo b l := by
  intro l
  induction l with
  | nil =>
    intro b h
    exact absurd (List.eq_nil_of_infix_nil h) hne
  | cons c r ih =>
    intro b h
    rcases List.infix_cons_iff.mp h with hp | hinf
    · obtain ⟨t, ht⟩ := hp
      obtain ⟨b', hb'⟩ := cw_keep w hww hsp t b (Or.inr hhead)
      rw [← ht, hb']
      exact (List.prefix_append w _).isInfix
    · by_cases hc : isWsC c = true
      · cases b with
        | true =>
          simp only [cwGo, hc, if_true]
          exact ih true hinf
        | false =>
          simp only [cwGo, hc, if_true]
          exact List.infix_cons (ih true hinf)
      · simp only [cwGo, hc, Bool.false_eq_true, if_false]
        exact List.infix_cons (ih false hinf)

theorem cp_keep : ∀ (w : List Char) (prev : Char), noDoubledB (prev :: w) = true →
    ∀ post, ∃ prev', cpGo prev (w ++ post) = w ++ cpGo prev' post := by
  intro w
  induction w with
  | nil => exact fun prev _ post => ⟨prev, rfl⟩
  | cons c w' ih =>
    intro prev hnd post
    have hcond : (isPunctC c && c == prev) = false := by
      rw [noDoubledB_cons] at hnd
      obtain ⟨h1, _⟩ := Bool.and_eq_true_iff.mp hnd
      by_cases hcp : (c == prev) = true
      · have hce : c = prev := eq_of_beq hcp
        subst hce
        have h2 : isPunctC c = false ∨ headIs c (c :: w') = false := by simpa using h1
        have h3 : headIs c (c :: w') = true := by simp [headIs]
        rcases h2 with h2 | h2
        · simp [h2]
        · rw [h3] at h2
          cases h2
      · simp [Bool.eq_false_iff.mpr hcp]
    obtain ⟨prev', hprev'⟩ := ih c (by
      rw [noDoubledB_cons] at hnd
      exact (Bool.and_eq_true_iff.mp hnd).2) post
    refine ⟨prev', ?_⟩
    rw [List.cons_append, cpGo_keep_eq _ hcond, hprev']
    rfl

theorem cp_surv {w : List Char} (hnd : noDoubledB w = true) (hhp : headPunct w = false)
    (hne : w ≠ []) : ∀ (l : List Char) (prev : Char), w <:+: l → w <:+: cpGo prev l := by
  intro l
  induction l with
  | nil =>
    intro prev h
    exact absurd (List.eq_nil_of_infix_nil h) hne
  | cons c r ih =>
    intro prev h
    rcases List.infix_cons_iff.mp h with hp | hinf
    · obtain ⟨t, ht⟩ := hp
      rcases w with _ | ⟨d, w'⟩
      · exact absurd rfl hne
      · have hd : isPunctC d = false := by simpa [headPunct] using hhp
        have hcond : (isPunctC d && d == prev) = false := by simp [hd]
        rw [← ht, List.cons_append, cpGo_keep_eq _ hcond]
        obtain ⟨prev', hprev'⟩ := cp_keep w' d (by simpa using hnd) t
        rw [hprev']
        exact (List.cons_prefix_cons.mpr ⟨rfl, List.prefix_append w' _⟩).isInfix
    · by_cases hcond : (isPunctC c && c == prev) = true
      · simp only [cpGo, hcond, if_true]
        exact ih prev hinf
      · rw [cpGo_keep_eq _ (Bool.eq_false_iff.mpr hcond)]
        exact List.infix_cons (ih c hinf)

theorem collapsePunct_eq_cpGo (l : List Char) : collapsePunct l = cpGo ' ' l := by
  cases l with
  | nil => rfl
  | cons c r =>
    have hcond : (isPunctC c && c == ' ') = false := by
      by_cases hc : (c == ' ') = true
      · rw [eq_of_beq hc]
        decide
      · simp [Bool.eq_false_iff.mpr hc]
    rw [collapsePunct, cpGo_keep_eq _ hcond]

theorem lastWs_cons_cons {a b : Char} {l : List Char} :
    lastWs (a :: b :: l) = lastWs (b :: l) := by
  simp [lastWs, List.getLast?_cons_cons]

theorem dwbp_keep : ∀ (w : List Char), noWspB w = true → lastWs w = false →
    ∀ post, dwbp (w ++ post) = w ++ dwbp post
  | [], _, _, post => rfl
  | [c], _, hlast, post => by
    cases post with
    | nil => rfl
    | cons d r =>
      have hc : isWsC c = false := by simpa [lastWs] using hlast
      simp [dwbp, hc]
  | a :: b :: w'', hwsp, hlast, post => by
    have hcond : (isWsC a && isPunctC b) = false := by
      rw [noWspB_cons] at hwsp
      obtain ⟨h1, _⟩ := Bool.and_eq_true_iff.mp hwsp
      have h2 : isWsC a = false ∨ headPunct (b :: w'') = false := by simpa using h1
      have h3 : headPunct (b :: w'') = isPunctC b := by simp [headPunct]
      rcases h2 with h2 | h2
      · simp [h2]
      · rw [h3] at h2
        simp [h2]
    have hrec := dwbp_keep (b :: w'') (noWspB_tail hwsp)
      (by rwa [lastWs_cons_cons] at hlast) post
    calc dwbp ((a :: b :: w'') ++ post)
        = a :: dwbp ((b :: w'') ++ post) := by
          simp only [List.cons_append, dwbp, hcond, Bool.false_eq_true, if_false]
          rfl
      _ = a :: ((b :: w'') ++ dwbp post) := by rw [hrec]
      _ = (a :: b :: w'') ++ dwbp post := rfl

theorem dwbp_surv : ∀ (l : List Char) {w : List Char}, noWspB w = true →
    headPunct w = false → headWs w = false → lastWs w = false → w ≠ [] →
    w <:+: l → w <:+: dwbp l
  | [], w, _, _, _, _, hne, h => absurd (List.eq_nil_of_infix_nil h) hne
  | [c], w, _, _, _, _, _, h => by simpa [dwbp] using h
  | a :: b :: r, w, hwsp, hhp, hhw, hlast, hne, h => by
    by_cases hab : (isWsC a && isPunctC b) = true
    · simp only [dwbp, hab, if_true]
      rcases List.infix_cons_iff.mp h with hp | hinf
      · rcases w with _ | ⟨d, w'⟩
        · exact absurd rfl hne
        · obtain ⟨rfl, _⟩ := List.cons_prefix_cons.mp hp
          have := (Bool.and_eq_true_iff.mp hab).1
          simp [headWs, this] at hhw
      · exact dwbp_surv (b :: r) hwsp hhp hhw hlast hne hinf
    · rcases List.infix_cons_iff.mp h with hp | hinf
      · obtain ⟨t, ht⟩ := hp
        rw [← ht, dwbp_keep w hwsp hlast t]
        exact (List.prefix_append w _).isInfix
      · simp only [dwbp, hab, Bool.false_eq_true, if_false]
        exact List.infix_cons (dwbp_surv (b :: r) hwsp hhp hhw hlast hne hinf)

/-- The main push-forward: an occurrence of a stable word survives the full
four-step normalization. -/
theorem normalizeL_surv {w l : List Char} (hst : stableW w) (h : w <:+: l) :
    w <:+: normalizeL l := by
  obtain ⟨hne, hhp, hhw, hlast, hsp, hww, hwsp, hnd⟩ := hst
  rw [normalizeL]
  have h1 : w <:+: trimL l := trim_surv hhw hlast hne h
  have h2 : w <:+: collapseWs (trimL l) := cw_surv hww hsp hhw hne _ false h1
  have h3 : w <:+: collapsePunct (collapseWs (trimL l)) := by
    rw [collapsePunct_eq_cpGo]
    exact cp_surv hnd hhp hne _ ' ' h2
  exact dwbp_surv _ hwsp hhp hhw hlast hne h3

/-! ### The joined clause string and its shape -/

theorem noWspB_pair_head {c : Char} {l : List Char} (h : noWspB (c :: l) = true)
    (hc : isWsC c = true) : headPunct l = false := by
  rw [noWspB_cons] at h
  obtain ⟨h1, _⟩ := Bool.and_eq_true_iff.mp h
  cases hp : headPunct l
  · rfl
  · rw [hc, hp] at h1
    simp at h1

theorem noWspB_pair_cc {a b : Char} {r : List Char} (h : noWspB (a :: b :: r) = true) :
    (isWsC a && isPunctC b) = false := by
  by_cases ha : isWsC a = true
  · have h2 := noWspB_pair_head h ha
    have hb : isPunctC b = false := by simpa [headPunct] using h2
    simp [hb]
  · simp [Bool.eq_false_iff.mpr ha]

theorem joinSp_occ_of_mem : ∀ (ps : List (List Char)) {p : List Char}, p ∈ ps →
    p <:+: joinSp ps := by
  intro ps
  induction ps with
  | nil => intro p h; exact absurd h (List.not_mem_nil p)
  | cons q ps ih =>
    intro p h
    cases ps with
    | nil =>
      rw [List.mem_singleton] at h
      subst h
      exact List.infix_refl _
    | cons r ps' =>
      rcases List.mem_cons.mp h with rfl | h'
      · exact (List.prefix_append p _).isInfix
      · exact occ_append_right (List.infix_cons (ih h'))

theorem word_notin_joinSp {w : List Char} (hws : wsfreeB w = true) (hne : w ≠ []) :
    ∀ (ps : List (List Char)), (∀ p ∈ ps, ¬ w <:+: p) → ¬ w <:+: joinSp ps := by
  intro ps
  induction ps with
  | nil => intro _; exact notin_nil hne
  | cons p ps ih =>
    intro h
    cases ps with
    | nil => simpa [joinSp] using h p (by simp)
    | cons q ps' =>
      have hx : ¬ w <:+: p := h p (by simp)
      have hy : ¬ w <:+: ' ' :: joinSp (q :: ps') := by
        refine notin_cons_notmem (wsfree_not_mem hws (by decide)) ?_ hne
        exact ih (fun r hr => h r (List.mem_cons_of_mem p hr))
      refine notin_append_right_block hx hy ?_
      intro c hc
      have hce : ' ' = c := by simpa using hc
      subst hce
      exact wsfree_not_mem hws (by decide)

theorem headPunct_joinSp : ∀ (ps : List (List Char)),
    (∀ p ∈ ps, headPunct p = false) → headPunct (joinSp ps) = false := by
  intro ps
  induction ps with
  | nil => intro _; rfl
  | cons p ps _ =>
    intro h
    cases ps with
    | nil => exact h p (by simp)
    | cons q ps' =>
      cases p with
      | nil => simp [joinSp, headPunct, isPunctC]
      | cons c p' =>
        have := h (c :: p') (by simp)
        simpa [joinSp, headPunct] using this

theorem noWspB_append {x y : List Char} (hx : noWspB x = true) (hy : noWspB y = true)
    (hcross : lastWs x = false ∨ headPunct y = false) : noWspB (x ++ y) = true := by
  induction x with
  | nil => simpa using hy
  | cons a x' ih =>
    cases x' with
    | nil =>
      show noWspB (a :: y) = true
      rw [noWspB_cons]
      have h1 : (isWsC a && headPunct y) = false := by
        rcases hcross with h | h
        · have : isWsC a = false := by simpa [lastWs] using h
          simp [this]
        · simp [h]
      simp [h1, hy]
    | cons b x'' =>
      rw [List.cons_append, noWspB_cons]
      have hh : headPunct ((b :: x'') ++ y) = isPunctC b := by simp [headPunct]
      have hpair : (isWsC a && isPunctC b) = false := noWspB_pair_cc hx
      have ht : noWspB ((b :: x'') ++ y) = true := by
        refine ih (noWspB_tail hx) ?_
        rcases hcross with h | h
        · exact Or.inl (by rwa [lastWs_cons_cons] at h)
        · exact Or.inr h
      simp only [List.cons_append] at hh ht
      simp [hh, hpair, ht]

theorem joinSp_noWsp : ∀ (ps : List (List Char)),
    (∀ p ∈ ps, noWspB p = true ∧ headPunct p = false) → noWspB (joinSp ps) = true := by
  intro ps
  induction ps with
  | nil => intro _; rfl
  | cons p ps ih =>
    intro h
    cases ps with
    | nil => exact (h p (by simp)).1
    | cons q ps' =>
      show noWspB (p ++ ' ' :: joinSp (q :: ps')) = true
      refine noWspB_append (h p (by simp)).1 ?_ (Or.inr (by simp [headPunct, isPunctC]))
      rw [noWspB_cons]
      have h1 : headPunct (joinSp (q :: ps')) = false :=
        headPunct_joinSp _ (fun r hr => (h r (List.mem_cons_of_mem p hr)).2)
      have h2 : noWspB (joinSp (q :: ps')) = true :=
        ih (fun r hr => h r (List.mem_cons_of_mem p hr))
      simp [h1, h2]

/-! ### `noWspB` is preserved by the first two rewrites, and makes the
third one the identity -/

theorem headPunct_cwGo_true {c : Char} {r : List Char} (hc : isWsC c = true)
    (h : noWspB (c :: r) = true) : headPunct (cwGo true r) = false := by
  induction r generalizing c with
  | nil => rfl
  | cons d r' ih =>
    by_cases hd : isWsC d = true
    · simp only [cwGo, hd, if_true]
      exact ih hd (noWspB_tail h)
    · simp only [cwGo, hd, Bool.false_eq_true, if_false]
      have h2 := noWspB_pair_head h hc
      simpa [headPunct] using by simpa [headPunct] using h2

theorem noWspB_cwGo : ∀ (l : List Char) (b : Bool), noWspB l = true →
    noWspB (cwGo b l) = true := by
  intro l
  induction l with
  | nil => intro b _; rfl
  | cons c r ih =>
    intro b h
    by_cases hc : isWsC c = true
    · cases b with
      | true =>
        simp only [cwGo, hc, if_true]
        exact ih true (noWspB_tail h)
      | false =>
        simp only [cwGo, hc, if_true, Bool.false_eq_true, if_false]
        rw [noWspB_cons]
        have h1 : headPunct (cwGo true r) = false := headPunct_cwGo_true hc h
        have h2 : noWspB (cwGo true r) = true := ih true (noWspB_tail h)
        simp [h1, h2]
    · simp only [cwGo, hc, Bool.false_eq_true, if_false]
      rw [noWspB_cons]
      have h2 : noWspB (cwGo false r) = true := ih false (noWspB_tail h)
      simp [Bool.eq_false_iff.mpr hc, h2]

theorem headPunct_cpGo {c : Char} {r : List Char} (hc : isWsC c = true)
    (h : noWspB (c :: r) = true) : headPunct (cpGo c r) = false := by
  cases r with
  | nil => rfl
  | cons d r' =>
    have hd : isPunctC d = false := by simpa [headPunct] using noWspB_pair_head h hc
    rw [cpGo_keep_eq _ (by simp [hd])]
    simpa [headPunct] using hd

theorem noWspB_cpGo : ∀ (l : List Char) (prev : Char), noWspB l = true →
    noWspB (cpGo prev l) = true := by
  intro l
  induction l with
  | nil => intro prev _; rfl
  | cons c r ih =>
    intro prev h
    by_cases hcond : (isPunctC c && c == prev) = true
    · simp only [cpGo, hcond, if_true]
      exact ih prev (noWspB_tail h)
    · rw [cpGo_keep_eq _ (Bool.eq_false_iff.mpr hcond), noWspB_cons]
      have h2 : noWspB (cpGo c r) = true := ih c (noWspB_tail h)
      by_cases hc : isWsC c = true
      · have h1 : headPunct (cpGo c r) = false := headPunct_cpGo hc h
        simp [h1, h2]
      · simp [Bool.eq_false_iff.mpr hc, h2]

theorem noWspB_collapsePunct {l : List Char} (h : noWspB l = true) :
    noWspB (collapsePunct l) = true := by
  rw [collapsePunct_eq_cpGo]
  exact noWspB_cpGo l ' ' h

theorem dwbp_id : ∀ (l : List Char), noWspB l = true → dwbp l = l
  | [], _ => rfl
  | [c], _ => rfl
  | a :: b :: r, h => by
    have hcond : (isWsC a && isPunctC b) = false := noWspB_pair_cc h
    simp only [dwbp, hcond, Bool.false_eq_true, if_false]
    rw [dwbp_id (b :: r) (noWspB_tail h)]

theorem noDoubledB_cpGo : ∀ (l : List Char) (prev : Char),
    noDoubledB (prev :: cpGo prev l) = true := by
  intro l
  induction l with
  | nil => intro prev; rfl
  | cons c r ih =>
    intro prev
    by_cases hcond : (isPunctC c && c == prev) = true
    · simp only [cpGo, hcond, if_true]
      exact ih prev
    · rw [cpGo_keep_eq _ (Bool.eq_false_iff.mpr hcond), noDoubledB_cons]
      have h2 : noDoubledB (c :: cpGo c r) = true := ih c
      have h1 : (isPunctC prev && headIs prev (c :: cpGo c r)) = false := by
        by_cases hpc : (prev == c) = true
        · have hpe : prev = c := eq_of_beq hpc
          subst hpe
          have : isPunctC prev = false := by
            by_cases hp : isPunctC prev = true
            · exact absurd (by simp [hp]) hcond
            · exact Bool.eq_false_iff.mpr hp
          simp [this]
        · simp [headIs, Bool.eq_false_iff.mpr hpc]
      simp [h1, h2]

theorem noDoubledB_collapsePunct : ∀ (l : List Char), noDoubledB (collapsePunct l) = true
  | [] => rfl
  | c :: r => noDoubledB_cpGo r c

/-- When the joined clause string has no whitespace-before-punctuation, the
normalized citation has no doubled `,`/`.`. -/
theorem normalizeL_noDoubled {l : List Char} (h : noWspB l = true) :
    ∀ c, isPunctC c = true → ¬ ([c, c] <:+: normalizeL l) := by
  intro c hc
  have h1 : noWspB (trimL l) = true := noWspB_infix_closed h (trimL_occ l)
  have h2 : noWspB (collapseWs (trimL l)) = true := noWspB_cwGo _ false h1
  have h3 : noWspB (collapsePunct (collapseWs (trimL l))) = true := noWspB_collapsePunct h2
  have h4 : normalizeL l = collapsePunct (collapseWs (trimL l)) := by
    rw [normalizeL, dwbp_id _ h3]
  rw [h4]
  exact noDoubled_pair (noDoubledB_collapsePunct _) hc

/-! ### Glue: from per-clause facts to facts about the final citation -/

theorem citation_word_free {w : List Char} (hws : wsfreeB w = true)
    (hpf : punctfreeB w = true) (hne : w ≠ []) {parts : List (List Char)}
    (h : ∀ p ∈ parts, ¬ w <:+: p) : ¬ w <:+: normalizeL (joinedParts parts) := by
  intro hocc
  have h1 := normalizeL_pull hpf hws hne hocc
  exact word_notin_joinSp hws hne _ (fun p hp => h p (List.mem_of_mem_filter hp)) h1

theorem citation_noDoubled {parts : List (List Char)}
    (h : ∀ p ∈ parts, noWspB p = true ∧ headPunct p = false) :
    ∀ c, isPunctC c = true → ¬ ([c, c] <:+: normalizeL (joinedParts parts)) :=
  normalizeL_noDoubled
    (joinSp_noWsp _ (fun p hp => h p (List.mem_of_mem_filter hp)))

theorem citation_word_surv {w : List Char} (hst : stableW w) {parts : List (List Char)}
    {p : List Char} (hp : p ∈ parts) (hpne : p ≠ []) (hw : w <:+: p) :
    w <:+: normalizeL (joinedParts parts) := by
  apply normalizeL_surv hst
  refine hw.trans (joinSp_occ_of_mem _ ?_)
  rw [List.mem_filter]
  exact ⟨hp, by simpa using hpne⟩

/-! ### Small evaluation helpers for the claim proofs -/

/-- The five names the style dispatch recognizes after lower-casing. -/
def supportedStyles : List String := ["apa", "mla", "chicago", "ieee", "harvard"]

theorem trimL_cons_ws {c : Char} {l : List Char} (hc : isWsC c = true) :
    trimL (c :: l) = trimL l := by
  rw [trimL, trimL, List.dropWhile_cons_of_pos (by simpa using hc)]

/-- Unfolding `generate_citation` on a style that lower-cases to "apa". -/
theorem gc_eq_apa {fmt : String} (h : pyLower fmt = "apa") (wm : WebPageDetails)
    (nd nu : Bool) (t1 t2 : Date) :
    generate_citation wm fmt nd nu t1 t2 =
      finishCitation wm fmt (if !nd then some (fmtLong t1) else none)
        (optIf (truthy wm.author) (pystr wm.author)
          ++ ["(n.d.).".data]
          ++ optIf (truthy wm.title) (pystr wm.title ++ ".".data)
          ++ optIf (truthy wm.publisher) (pystr wm.publisher ++ ".".data)
          ++ optIf (truthy (if !nd then some (fmtLong t1) else none))
              ("Retrieved ".data ++ pystr (if !nd then some (fmtLong t1) else none))
          ++ optIf (!nu) ("from ".data ++ pystr wm.url)) := by
  simp only [generate_citation]
  rw [if_pos h]

/-- Unfolding `generate_citation` on a style that lower-cases to "mla". -/
theorem gc_eq_mla {fmt : String} (h : pyLower fmt = "mla") (wm : WebPageDetails)
    (nd nu : Bool) (t1 t2 : Date) :
    generate_citation wm fmt nd nu t1 t2 =
      finishCitation wm fmt (if !nd then some (fmtLong t1) else none)
        (optIf (truthy wm.author) (pystr wm.author ++ ".".data)
          ++ optIf (truthy wm.title) ('"' :: pystr wm.title ++ ".\"".data)
          ++ optIf (truthy wm.publisher) (pystr wm.publisher)
          ++ optIf (!nu) (pystr wm.url)
          ++ optIf (truthy (if !nd then some (fmtLong t1) else none))
              ("Accessed ".data ++ pystr (if !nd then some (fmtLong t1) else none)
                ++ ".".data)) := by
  simp only [generate_citation]
  rw [if_neg (by rw [h]; decide), if_pos h]

/-- Unfolding `generate_citation` on a style that lower-cases to "chicago". -/
theorem gc_eq_chicago {fmt : String} (h : pyLower fmt = "chicago") (wm : WebPageDetails)
    (nd nu : Bool) (t1 t2 : Date) :
    generate_citation wm fmt nd nu t1 t2 =
      finishCitation wm fmt (if !nd then some (fmtLong t1) else none)
        (optIf (truthy wm.author) (pystr wm.author ++ ".".data)
          ++ optIf (truthy wm.title) ('"' :: pystr wm.title ++ ".\"".data)
          ++ optIf (truthy wm.publisher) (pystr wm.publisher ++ ".".data)
          ++ optIf (truthy (if !nd then some (fmtLong t1) else none))
              ("Accessed ".data ++ pystr (if !nd then some (fmtLong t1) else none)
                ++ ".".data)
          ++ optIf (!nu) (pystr wm.url ++ ".".data)) := by
  simp only [generate_citation]
  rw [if_neg (by rw [h]; decide), if_neg (by rw [h]; decide), if_pos h]

/-- Unfolding `generate_citation` on a style that lower-cases to "ieee". -/
theorem gc_eq_ieee {fmt : String} (h : pyLower fmt = "ieee") (wm : WebPageDetails)
    (nd nu : Bool) (t1 t2 : Date) :
    generate_citation wm fmt nd nu t1 t2 =
      finishCitation wm fmt (if !nd then some (fmtLong t1) else none)
        (optIf (truthy wm.author) (pystr wm.author ++ ",".data)
          ++ optIf (truthy wm.title) ('"' :: pystr wm.title ++ ",\"".data)
          ++ optIf (truthy wm.publisher) (pystr wm.publisher ++ ".".data)
          ++ ["[Online].".data]
          ++ optIf (!nu) ("Available: ".data ++ pystr wm.url)
          ++ optIf (truthy (if !nd then some (fmtLong t1) else none))
              ("[Accessed: ".data ++ fmtDashL t2 ++ "]".data)) := by
  simp only [generate_citation]
  rw [if_neg (by rw [h]; decide), if_neg (by rw [h]; decide), if_neg (by rw [h]; decide),
    if_pos h]

/-- Unfolding `generate_citation` on a style that lower-cases to "harvard". -/
theorem gc_eq_harvard {fmt : String} (h : pyLower fmt = "harvard") (wm : WebPageDetails)
    (nd nu : Bool) (t1 t2 : Date) :
    generate_citation wm fmt nd nu t1 t2 =
      finishCitation wm fmt (if !nd then some (fmtLong t1) else none)
        (optIf (truthy wm.author) (pystr wm.author ++ ",".data)
          ++ optIf (truthy wm.title) (pystr wm.title ++ ".".data)
          ++ optIf (!nu) ("Available at: ".data ++ pystr wm.url)
          ++ optIf (truthy (if !nd then some (fmtLong t1) else none))
              ("(Accessed: ".data ++ pystr (if !nd then some (fmtLong t1) else none)
                ++ ")".data)) := by
  simp only [generate_citation]
  rw [if_neg (by rw [h]; decide), if_neg (by rw [h]; decide), if_neg (by rw [h]; decide),
    if_neg (by rw [h]; decide), if_pos h]

/-- `strftime` output is never the empty string. -/
theorem fmtLongL_ne_nil (t : Date) : fmtLongL t ≠ [] := by
  simp [fmtLongL, pad2L]

/-- The rendered access date is a truthy (non-empty) Python string. -/
theorem truthy_fmtLong (t : Date) : truthy (some (fmtLong t)) = true := by
  have hd : (fmtLong t).data = fmtLongL t := rfl
  cases hfl : fmtLongL t with
  | nil => exact absurd hfl (fmtLongL_ne_nil t)
  | cons c r => simp [truthy, hd, hfl]

/-! ## Claim C2 -/

/-- C2: for every metadata record and flag combination, a style whose
lower-casing is not one of apa/mla/chicago/ieee/harvard makes
`generate_citation` return (not raise) exactly the fixed sentinel string
"Unsupported format. Please use one of the following: apa, mla, chicago,
IEEE, Harvard.", regardless of the suppress flags. -/
theorem c2_unsupported_style_sentinel (wm : WebPageDetails) (fmt : String)
    (no_date no_url : Bool) (t1 t2 : Date)
    (h : pyLower fmt ∉ supportedStyles) :
    generate_citation wm fmt no_date no_url t1 t2 =
      GenResult.str "Unsupported format. Please use one of the following: apa, mla, chicago, IEEE, Harvard." := by
  have h1 : ¬ pyLower fmt = "apa" := fun hx => h (by simp [supportedStyles, hx])
  have h2 : ¬ pyLower fmt = "mla" := fun hx => h (by simp [supportedStyles, hx])
  have h3 : ¬ pyLower fmt = "chicago" := fun hx => h (by simp [supportedStyles, hx])
  have h4 : ¬ pyLower fmt = "ieee" := fun hx => h (by simp [supportedStyles, hx])
  have h5 : ¬ pyLower fmt = "harvard" := fun hx => h (by simp [supportedStyles, hx])
  simp only [generate_citation, h1, h2, h3, h4, h5, if_false, sentinel]

/-- Witness for C2 at the spec's own example, style "klingon". -/
theorem c2_unsupported_style_sentinel_witness :
    pyLower "klingon" ∉ supportedStyles ∧
    generate_citation ⟨some "http://example.com", none, none, none, none⟩ "klingon"
        true false ⟨5, 3, 2024⟩ ⟨5, 3, 2024⟩ =
      GenResult.str "Unsupported format. Please use one of the following: apa, mla, chicago, IEEE, Harvard." :=
  ⟨by decide,
   c2_unsupported_style_sentinel ⟨some "http://example.com", none, none, none, none⟩
     "klingon" true false ⟨5, 3, 2024⟩ ⟨5, 3, 2024⟩ (by decide)⟩

/-! ## Claim C10 -/

/-- C10: on each of the five supported styles the returned
`CitationMetaData` carries the input metadata fields through unchanged,
`format_type` is the style argument exactly as supplied (case preserved),
and `date_accessed` is `None` exactly when the date is suppressed. -/
theorem c10_record_passthrough (wm : WebPageDetails) (fmt : String)
    (no_date no_url : Bool) (t1 t2 : Date)
    (h : pyLower fmt ∈ supportedStyles) :
    ∃ m : CitationMetaData,
      generate_citation wm fmt no_date no_url t1 t2 = GenResult.record m ∧
      m.url = wm.url ∧ m.title = wm.title ∧ m.author = wm.author ∧
      m.publisher = wm.publisher ∧ m.date_published = wm.date_published ∧
      m.format_type = some fmt ∧ (m.date_accessed = none ↔ no_date = true) := by
  have hda : ∀ m : CitationMetaData,
      m.date_accessed = (if !no_date then some (fmtLong t1) else none) →
      (m.date_accessed = none ↔ no_date = true) := by
    intro m hm
    cases no_date <;> simp [hm]
  simp only [supportedStyles, List.mem_cons, List.mem_singleton, List.not_mem_nil,
    or_false] at h
  rcases h with h | h | h | h | h
  · rw [gc_eq_apa h]
    exact ⟨_, rfl, rfl, rfl, rfl, rfl, rfl, rfl, hda _ rfl⟩
  · rw [gc_eq_mla h]
    exact ⟨_, rfl, rfl, rfl, rfl, rfl, rfl, rfl, hda _ rfl⟩
  · rw [gc_eq_chicago h]
    exact ⟨_, rfl, rfl, rfl, rfl, rfl, rfl, rfl, hda _ rfl⟩
  · rw [gc_eq_ieee h]
    exact ⟨_, rfl, rfl, rfl, rfl, rfl, rfl, rfl, hda _ rfl⟩
  · rw [gc_eq_harvard h]
    exact ⟨_, rfl, rfl, rfl, rfl, rfl, rfl, rfl, hda _ rfl⟩

/-- Witness for C10: mixed-case "ChIcAgO" with a populated record. -/
theorem c10_record_passthrough_witness :
    pyLower "ChIcAgO" ∈ supportedStyles ∧
    (∃ m : CitationMetaData,
      generate_citation ⟨some "http://x", some "T", some "A", some "P", some "D"⟩
          "ChIcAgO" false true ⟨5, 3, 2024⟩ ⟨5, 3, 2024⟩ = GenResult.record m ∧
      m.url = some "http://x" ∧ m.title = some "T" ∧ m.author = some "A" ∧
      m.publisher = some "P" ∧ m.date_published = some "D" ∧
      m.format_type = some "ChIcAgO" ∧ (m.date_accessed = none ↔ false = true)) :=
  ⟨by decide,
   c10_record_passthrough ⟨some "http://x", some "T", some "A", some "P", some "D"⟩
     "ChIcAgO" false true ⟨5, 3, 2024⟩ ⟨5, 3, 2024⟩ (by decide)⟩

/-! ## Claim C4 -/

/-- C4 (refuting evaluation): the source samples `datetime.today()` twice —
once at line 352 for `date_accessed` and again at line 402 inside the IEEE
branch — so when the two calls straddle midnight the single returned
citation carries two different calendar days: `date_accessed` renders the
first sample ("31 December 2023") while the citation's `[Accessed: ...]`
clause renders the second ("01-Jan-2024"). -/
theorem c4_ieee_two_clock_samples :
    generate_citation ⟨some "http://x", none, none, none, none⟩ "IEEE" false false
        ⟨31, 12, 2023⟩ ⟨1, 1, 2024⟩ =
      GenResult.record
        ⟨some "[Online]. Available: http://x [Accessed: 01-Jan-2024]", some "IEEE",
         some "http://x", none, none, none, none, some "31 December 2023"⟩ ∧
    (⟨31, 12, 2023⟩ : Date) ≠ ⟨1, 1, 2024⟩ := by
  constructor
  · rfl
  · decide

/-! ## Claim C6 -/

/-- C6 (counterexample to the claim as stated): with `suppress_url` set the
url text can still appear in the citation when it happens to occur inside
another field's text — here the record's author is "John Doe" and its url
is the one-letter string "e", and the suppressed-url MLA citation
"John Doe." contains "e". -/
theorem c6_counterexample_url_text_coincidence :
    generate_citation ⟨some "e", none, some "John Doe", none, none⟩ "mla" true true
        ⟨5, 3, 2024⟩ ⟨5, 3, 2024⟩ =
      GenResult.record
        ⟨some "John Doe.", some "mla", some "e", none, some "John Doe", none, none, none⟩ ∧
    "e".data <:+: "John Doe.".data := by
  constructor
  · rfl
  · decide

/-- C6 (amended): with `suppress_url` set the url clause is dropped
entirely — the citation text does not depend on the url field at all, so it
equals the citation computed with the url absent (hence the url appears
only if its text coincides with text contributed by the other fields or by
fixed style text). -/
theorem c6_amended_url_noninterference (wm : WebPageDetails) (fmt : String)
    (no_date : Bool) (u : Option String) (t1 t2 : Date) :
    resultCitation (generate_citation { wm with url := u } fmt no_date true t1 t2) =
      resultCitation (generate_citation { wm with url := none } fmt no_date true t1 t2) := by
  by_cases h1 : pyLower fmt = "apa"
  · simp [generate_citation, h1, finishCitation, resultCitation, optIf]
  by_cases h2 : pyLower fmt = "mla"
  · simp [generate_citation, h1, h2, finishCitation, resultCitation, optIf]
  by_cases h3 : pyLower fmt = "chicago"
  · simp [generate_citation, h1, h2, h3, finishCitation, resultCitation, optIf]
  by_cases h4 : pyLower fmt = "ieee"
  · simp [generate_citation, h1, h2, h3, h4, finishCitation, resultCitation, optIf]
  by_cases h5 : pyLower fmt = "harvard"
  · simp [generate_citation, h1, h2, h3, h4, h5, finishCitation, resultCitation, optIf]
  · simp [generate_citation, h1, h2, h3, h4, h5, resultCitation]

/-! ## Claim C7 -/

/-- C7: a record with only the url present is a valid formatter input for
every style (all five dispatch to a normal `CitationMetaData` result); MLA
yields exactly the normalization of "url Accessed date." (just the url and
accessed-date clauses), MLA with both flags set yields the empty string,
and Harvard with both flags set yields exactly the empty string. -/
theorem c7_url_only_record (u : String) (nd nu : Bool) (t1 t2 : Date) :
    (∃ m, generate_citation ⟨some u, none, none, none, none⟩ "mla" nd nu t1 t2 =
        GenResult.record m) ∧
    (∃ m, generate_citation ⟨some u, none, none, none, none⟩ "apa" nd nu t1 t2 =
        GenResult.record m) ∧
    (∃ m, generate_citation ⟨some u, none, none, none, none⟩ "chicago" nd nu t1 t2 =
        GenResult.record m) ∧
    (∃ m, generate_citation ⟨some u, none, none, none, none⟩ "ieee" nd nu t1 t2 =
        GenResult.record m) ∧
    (∃ m, generate_citation ⟨some u, none, none, none, none⟩ "harvard" nd nu t1 t2 =
        GenResult.record m) ∧
    resultCitation (generate_citation ⟨some u, none, none, none, none⟩ "mla" false false
        t1 t2) =
      some ⟨normalizeL (u.data ++ ' ' :: ("Accessed ".data ++ (fmtLongL t1 ++ ".".data)))⟩ ∧
    resultCitation (generate_citation ⟨some u, none, none, none, none⟩ "mla" true true
        t1 t2) = some "" ∧
    resultCitation (generate_citation ⟨some u, none, none, none, none⟩ "harvard" true true
        t1 t2) = some "" := by
  refine ⟨⟨_, gc_eq_mla (by decide) _ nd nu t1 t2⟩,
    ⟨_, gc_eq_apa (by decide) _ nd nu t1 t2⟩,
    ⟨_, gc_eq_chicago (by decide) _ nd nu t1 t2⟩,
    ⟨_, gc_eq_ieee (by decide) _ nd nu t1 t2⟩,
    ⟨_, gc_eq_harvard (by decide) _ nd nu t1 t2⟩, ?_, ?_, ?_⟩
  · rw [gc_eq_mla (by decide)]
    have hacc : (("Accessed ".data ++ (fmtLongL t1 ++ ".".data))).isEmpty = false := by
      cases hfl : fmtLongL t1 <;> rfl
    simp only [resultCitation, finishCitation, optIf, truthy_fmtLong, if_true,
      Bool.not_false, truthy, Bool.false_eq_true, if_false, List.nil_append,
      List.append_nil, Option.some_inj]
    congr 1
    show normalizeL
        (joinedParts [u.data, "Accessed ".data ++ (fmtLongL t1 ++ ".".data)]) = _
    cases hud : u.data with
    | nil =>
      have h1 : joinedParts [([] : List Char),
          "Accessed ".data ++ (fmtLongL t1 ++ ".".data)] =
          "Accessed ".data ++ (fmtLongL t1 ++ ".".data) := by
        simp [joinedParts, List.filter_cons, hacc, joinSp]
      rw [h1, List.nil_append, normalizeL, normalizeL, trimL_cons_ws (by decide)]
    | cons c cs =>
      have h1 : joinedParts [c :: cs, "Accessed ".data ++ (fmtLongL t1 ++ ".".data)] =
          (c :: cs) ++ ' ' :: ("Accessed ".data ++ (fmtLongL t1 ++ ".".data)) := by
        simp [joinedParts, List.filter_cons, hacc, joinSp]
      rw [h1]
  · rw [gc_eq_mla (by decide)]
    simp [resultCitation, finishCitation, optIf, truthy, joinedParts, joinSp,
      normalizeL, trimL, dwbp, collapsePunct, collapseWs, cwGo]
  · rw [gc_eq_harvard (by decide)]
    simp [resultCitation, finishCitation, optIf, truthy, joinedParts, joinSp,
      normalizeL, trimL, dwbp, collapsePunct, collapseWs, cwGo]

/-! ## Claim C9 -/

/-- C9 (counterexample to the claim as stated): a page whose title was
extracted as "T" but whose date meta content "not-a-date" is not ISO
parsable comes back as the all-empty record — the blanket
`except Exception` in `get_webpage_details` absorbs the `strptime`
`ValueError` and discards the already-extracted fields, so the title is
not retained as the claim asserts. -/
theorem c9_counterexample_parse_failure_wipes_record :
    get_webpage_details "http://x" (some ⟨some "T", none, some "not-a-date", none⟩) =
      ({} : WebPageDetails) ∧
    (get_webpage_details "http://x"
        (some ⟨some "T", none, some "not-a-date", none⟩)).title ≠ some "T" := by
  constructor
  · rfl
  · decide

/-- C9 (amended): when the date meta content is present but not parsable as
ISO `YYYY-MM-DD`, the whole returned record is the all-empty
`WebPageDetails()` (the resolver's failure path absorbs the parse error);
when it does parse, `date_published` is the `DD Mon. YYYY` rendering and
the independently extracted fields keep their stripped values. -/
theorem c9_amended_unparsable_date_empties_record (url : String) (p : PageData)
    (raw : String) (hd : p.dateContent = some raw) :
    (parseISO (trimL raw.data) = none → get_webpage_details url (some p) = {}) ∧
    (∀ t, parseISO (trimL raw.data) = some t →
      get_webpage_details url (some p) =
        { url := some url, title := p.title.map pyStrip, author := p.author.map pyStrip,
          publisher := p.publisher.map pyStrip,
          date_published := some (fmtAbbrDot t) }) := by
  constructor
  · intro hp
    simp [get_webpage_details, hd, hp]
  · intro t hp
    simp [get_webpage_details, hd, hp]

/-- Witness for C9 at both branches: an unparsable date and the spec's
example date "2021-03-05" (rendered "05 Mar. 2021"). -/
theorem c9_amended_unparsable_date_empties_record_witness :
    ((⟨some " T ", none, some "bogus", none⟩ : PageData).dateContent = some "bogus") ∧
    (parseISO (trimL "bogus".data) = none →
      get_webpage_details "http://x" (some ⟨some " T ", none, some "bogus", none⟩) = {}) ∧
    parseISO (trimL "bogus".data) = none ∧
    get_webpage_details "http://x" (some ⟨some " T ", none, some "bogus", none⟩) =
      ({} : WebPageDetails) ∧
    ((⟨some " T ", none, some "2021-03-05", none⟩ : PageData).dateContent =
      some "2021-03-05") ∧
    get_webpage_details "http://x" (some ⟨some " T ", none, some "2021-03-05", none⟩) =
      { url := some "http://x", title := some "T", date_published := some "05 Mar. 2021" } := by
  refine ⟨rfl,
    (c9_amended_unparsable_date_empties_record "http://x"
      ⟨some " T ", none, some "bogus", none⟩ "bogus" rfl).1, by decide, ?_, rfl, ?_⟩
  · exact (c9_amended_unparsable_date_empties_record "http://x"
      ⟨some " T ", none, some "bogus", none⟩ "bogus" rfl).1 (by decide)
  · have h := (c9_amended_unparsable_date_empties_record "http://x"
      ⟨some " T ", none, some "2021-03-05", none⟩ "2021-03-05" rfl).2
        ⟨5, 3, 2021⟩ (by decide)
    rw [h]
    rfl

/-! ## Claim C3

Lemmas describing the shape of each rewrite's output, and identity lemmas
for inputs already of that shape. -/

theorem lastWs_reverse (l : List Char) : lastWs l.reverse = headWs l := by
  simp [lastWs, headWs, List.getLast?_reverse]

theorem lastWs_cons_of_ne_nil {a : Char} {l : List Char} (h : l ≠ []) :
    lastWs (a :: l) = lastWs l := by
  cases l with
  | nil => exact absurd rfl h
  | cons b r => exact lastWs_cons_cons

theorem headWs_dropWhile (l : List Char) : headWs (l.dropWhile isWsC) = false := by
  induction l with
  | nil => rfl
  | cons c r ih =>
    cases hc : isWsC c
    · rw [List.dropWhile_cons_of_neg (by simp [hc])]
      simp [headWs, hc]
    · rw [List.dropWhile_cons_of_pos (by simp [hc])]
      exact ih

theorem lastWs_dropWhile {l : List Char} (h : lastWs l = false) :
    lastWs (l.dropWhile isWsC) = false := by
  cases hz : l.dropWhile isWsC with
  | nil => rfl
  | cons c r =>
    obtain ⟨u, hu⟩ := List.dropWhile_suffix (l := l) isWsC
    have h1 : (c :: r).getLast? = l.getLast? := by
      rw [← hu, hz]
      exact (List.getLast?_append_of_ne_nil u (by simp)).symm
    rw [lastWs, h1]
    exact h

theorem trimL_headWs (l : List Char) : headWs (trimL l) = false := by
  rw [trimL, headWs_reverse]
  refine lastWs_dropWhile ?_
  rw [lastWs_reverse]
  exact headWs_dropWhile l

theorem trimL_lastWs (l : List Char) : lastWs (trimL l) = false := by
  rw [trimL, lastWs_reverse]
  exact headWs_dropWhile _

theorem headWs_cwGo {l : List Char} (b : Bool) (h : headWs l = false) :
    headWs (cwGo b l) = false := by
  cases l with
  | nil => rfl
  | cons c r =>
    have hc : isWsC c = false := by simpa [headWs] using h
    simp [cwGo, hc, headWs]

theorem cwGo_ws_true {c : Char} {r : List Char} (hc : isWsC c = true) :
    cwGo true (c :: r) = cwGo true r := by
  simp [cwGo, hc]

theorem cwGo_ws_false {c : Char} {r : List Char} (hc : isWsC c = true) :
    cwGo false (c :: r) = ' ' :: cwGo true r := by
  simp [cwGo, hc]

theorem cwGo_nonws {c : Char} {r : List Char} (b : Bool) (hc : isWsC c = false) :
    cwGo b (c :: r) = c :: cwGo false r := by
  simp [cwGo, hc]

theorem cwGo_ne_nil : ∀ (l : List Char) (b : Bool), lastWs l = false → l ≠ [] →
    cwGo b l ≠ [] := by
  intro l
  induction l with
  | nil => intro b _ h; exact absurd rfl h
  | cons c r ih =>
    intro b h _
    cases r with
    | nil =>
      have hc : isWsC c = false := by simpa [lastWs] using h
      rw [cwGo_nonws b hc]
      simp
    | cons d r' =>
      have h' : lastWs (d :: r') = false := by rwa [lastWs_cons_cons] at h
      cases hc : isWsC c
      · rw [cwGo_nonws b hc]
        simp
      · cases b
        · rw [cwGo_ws_false hc]
          simp
        · rw [cwGo_ws_true hc]
          exact ih true h' (by simp)

theorem lastWs_cwGo : ∀ (l : List Char) (b : Bool), lastWs l = false →
    lastWs (cwGo b l) = false := by
  intro l
  induction l with
  | nil => intro b _; rfl
  | cons c r ih =>
    intro b h
    cases r with
    | nil =>
      have hc : isWsC c = false := by simpa [lastWs] using h
      rw [cwGo_nonws b hc]
      simpa [lastWs, cwGo] using hc
    | cons d r' =>
      have h' : lastWs (d :: r') = false := by rwa [lastWs_cons_cons] at h
      have hX : ∀ b', cwGo b' (d :: r') ≠ [] := fun b' => cwGo_ne_nil _ b' h' (by simp)
      cases hc : isWsC c
      · rw [cwGo_nonws b hc, lastWs_cons_of_ne_nil (hX false)]
        exact ih false h'
      · cases b
        · rw [cwGo_ws_false hc, lastWs_cons_of_ne_nil (hX true)]
          exact ih true h'
        · rw [cwGo_ws_true hc]
          exact ih true h'

theorem headWs_cwGo_true : ∀ (l : List Char), headWs (cwGo true l) = false := by
  intro l
  induction l with
  | nil => rfl
  | cons c r ih =>
    cases hc : isWsC c
    · rw [cwGo_nonws true hc]
      simpa [headWs] using hc
    · rw [cwGo_ws_true hc]
      exact ih

theorem cw_noWW : ∀ (l : List Char) (b : Bool), noWWB (cwGo b l) = true := by
  intro l
  induction l with
  | nil => intro b; rfl
  | cons c r ih =>
    intro b
    cases hc : isWsC c
    · rw [cwGo_nonws b hc, noWWB_cons]
      simp [hc, ih false]
    · cases b
      · rw [cwGo_ws_false hc, noWWB_cons]
        simp [headWs_cwGo_true, ih true]
      · rw [cwGo_ws_true hc]
        exact ih true

theorem cw_spaceOnly : ∀ (l : List Char) (b : Bool), spaceOnlyB (cwGo b l) = true := by
  intro l
  induction l with
  | nil => intro b; rfl
  | cons c r ih =>
    intro b
    cases hc : isWsC c
    · rw [cwGo_nonws b hc]
      have h1 := ih false
      rw [spaceOnlyB] at h1 ⊢
      rw [List.all_cons, h1]
      simp [hc]
    · cases b
      · rw [cwGo_ws_false hc]
        have h1 := ih true
        rw [spaceOnlyB] at h1 ⊢
        rw [List.all_cons, h1]
        decide
      · rw [cwGo_ws_true hc]
        exact ih true

theorem cpGo_sublist : ∀ (l : List Char) (prev : Char), List.Sublist (cpGo prev l) l := by
  intro l
  induction l with
  | nil => intro prev; exact List.Sublist.refl []
  | cons c r ih =>
    intro prev
    by_cases hcond : (isPunctC c && c == prev) = true
    · simp only [cpGo, hcond, if_true]
      exact (ih prev).trans (List.sublist_cons_self c r)
    · rw [cpGo_keep_eq _ (Bool.eq_false_iff.mpr hcond)]
      exact List.Sublist.cons₂ c (ih c)

theorem collapsePunct_sublist (l : List Char) : List.Sublist (collapsePunct l) l := by
  cases l with
  | nil => exact List.Sublist.refl []
  | cons c r => exact List.Sublist.cons₂ c (cpGo_sublist r c)

theorem spaceOnlyB_sublist {l' l : List Char} (hs : List.Sublist l' l)
    (h : spaceOnlyB l = true) : spaceOnlyB l' = true := by
  rw [spaceOnlyB, List.all_eq_true]
  intro c hc
  exact List.all_eq_true.mp h c (hs.subset hc)

theorem cp_noWW : ∀ (l : List Char) (prev : Char), noWWB (prev :: l) = true →
    noWWB (prev :: cpGo prev l) = true := by
  intro l
  induction l with
  | nil => intro prev _; rfl
  | cons c r ih =>
    intro prev h
    by_cases hcond : (isPunctC c && c == prev) = true
    · simp only [cpGo, hcond, if_true]
      refine ih prev ?_
      rw [noWWB_cons]
      have hprev : isWsC prev = false :=
        punct_not_ws (by
          have h1 := (Bool.and_eq_true_iff.mp hcond).1
          have h2 : c = prev := eq_of_beq (Bool.and_eq_true_iff.mp hcond).2
          rwa [h2] at h1)
      simp [hprev]
      exact noWWB_tail (noWWB_tail h)
    · rw [cpGo_keep_eq _ (Bool.eq_false_iff.mpr hcond)]
      rw [noWWB_cons]
      have h1 : noWWB (c :: cpGo c r) = true := ih c (noWWB_tail h)
      have h2 : (isWsC prev && headWs (c :: cpGo c r)) = false := by
        rw [noWWB_cons] at h
        have h1' := (Bool.and_eq_true_iff.mp h).1
        have h3 : isWsC prev = false ∨ isWsC c = false := by simpa [headWs] using h1'
        have h4 : headWs (c :: cpGo c r) = isWsC c := by simp [headWs]
        rcases h3 with h3 | h3 <;> simp [h3, h4]
      simp [h1, h2]

theorem collapsePunct_noWW {l : List Char} (h : noWWB l = true) :
    noWWB (collapsePunct l) = true := by
  cases l with
  | nil => rfl
  | cons c r => exact cp_noWW r c h

theorem headWs_collapsePunct (l : List Char) : headWs (collapsePunct l) = headWs l := by
  cases l with
  | nil => rfl
  | cons c r => simp [collapsePunct, headWs]

theorem cpGo_getLast : ∀ (l : List Char) (prev : Char),
    (prev :: cpGo prev l).getLast? = (prev :: l).getLast? := by
  intro l
  induction l with
  | nil => intro prev; rfl
  | cons c r ih =>
    intro prev
    by_cases hcond : (isPunctC c && c == prev) = true
    · have hce : c = prev := eq_of_beq (Bool.and_eq_true_iff.mp hcond).2
      simp only [cpGo, hcond, if_true]
      rw [ih prev, List.getLast?_cons_cons]
      cases r with
      | nil => rw [hce]
      | cons d r' => rw [List.getLast?_cons_cons, List.getLast?_cons_cons]
    · rw [cpGo_keep_eq _ (Bool.eq_false_iff.mpr hcond)]
      rw [List.getLast?_cons_cons, ih c, List.getLast?_cons_cons]

theorem lastWs_collapsePunct {l : List Char} (h : lastWs l = false) :
    lastWs (collapsePunct l) = false := by
  cases l with
  | nil => rfl
  | cons c r =>
    show lastWs (c :: cpGo c r) = false
    rw [lastWs, cpGo_getLast r c]
    exact h

theorem dropWhile_id_of_headWs {l : List Char} (h : headWs l = false) :
    l.dropWhile isWsC = l := by
  cases l with
  | nil => rfl
  | cons c r =>
    have hc : isWsC c = false := by simpa [headWs] using h
    rw [List.dropWhile_cons_of_neg (by simp [hc])]

theorem trimL_id {l : List Char} (hh : headWs l = false) (hl : lastWs l = false) :
    trimL l = l := by
  rw [trimL, dropWhile_id_of_headWs hh, dropWhile_id_of_headWs (by rwa [headWs_reverse]),
    List.reverse_reverse]

theorem cw_id : ∀ (l : List Char) (b : Bool), noWWB l = true → spaceOnlyB l = true →
    (b = true → headWs l = false) → cwGo b l = l := by
  intro l
  induction l with
  | nil => intro b _ _ _; rfl
  | cons c r ih =>
    intro b hww hsp hb
    cases hc : isWsC c
    · simp only [cwGo, hc, Bool.false_eq_true, if_false]
      rw [ih false (noWWB_tail hww) (spaceOnlyB_tail hsp) (by simp)]
    · have hbf : b = false := by
        cases b
        · rfl
        · exact absurd (hb rfl) (by simp [headWs, hc])
      subst hbf
      rw [cwGo_ws_false hc, spaceOnlyB_head hsp hc,
        ih true (noWWB_tail hww) (spaceOnlyB_tail hsp) (fun _ => noWWB_head hww hc)]

theorem cpGo_id : ∀ (l : List Char) (prev : Char), noDoubledB (prev :: l) = true →
    cpGo prev l = l := by
  intro l
  induction l with
  | nil => intro prev _; rfl
  | cons c r ih =>
    intro prev h
    have hcond : (isPunctC c && c == prev) = false := by
      rw [noDoubledB_cons] at h
      have h1 := (Bool.and_eq_true_iff.mp h).1
      by_cases hcp : (c == prev) = true
      · have hce : c = prev := eq_of_beq hcp
        subst hce
        have h2 : isPunctC c = false ∨ headIs c (c :: r) = false := by simpa using h1
        rcases h2 with h2 | h2
        · simp [h2]
        · rw [show headIs c (c :: r) = true from by simp [headIs]] at h2
          cases h2
      · simp [Bool.eq_false_iff.mpr hcp]
    rw [cpGo_keep_eq _ hcond, ih c (noDoubledB_tail h)]

theorem collapsePunct_id {l : List Char} (h : noDoubledB l = true) :
    collapsePunct l = l := by
  cases l with
  | nil => rfl
  | cons c r =>
    show c :: cpGo c r = c :: r
    rw [cpGo_id r c h]

/-- C3 (counterexample): the four-step normalization is not idempotent —
on ". ." the first pass's rule 3 creates the doubled ".." that a second
pass's rule 2 then collapses, so running the pipeline again changes the
string. -/
theorem c3_counterexample_normalization_not_idempotent :
    normalizeL ". .".data = "..".data ∧
    normalizeL (normalizeL ". .".data) = ".".data ∧
    normalizeL (normalizeL ". .".data) ≠ normalizeL ". .".data := by
  refine ⟨by decide, by decide, by decide⟩

/-- C3 (amended): the four-step post-processing normalization is idempotent
on every string containing no whitespace character immediately followed by
`,` or `.` — on such strings rule 3 is the identity, and the remaining
rules are idempotent, so a second application returns its input
unchanged. -/
theorem c3_amended_idempotent_without_ws_before_punct (l : List Char)
    (h : noWspB l = true) : normalizeL (normalizeL l) = normalizeL l := by
  have h1 : noWspB (trimL l) = true := noWspB_infix_closed h (trimL_occ l)
  have h2 : noWspB (collapseWs (trimL l)) = true := noWspB_cwGo _ false h1
  have h3 : noWspB (collapsePunct (collapseWs (trimL l))) = true := noWspB_collapsePunct h2
  have hnl : normalizeL l = collapsePunct (collapseWs (trimL l)) := by
    rw [normalizeL, dwbp_id _ h3]
  rw [hnl]
  have e3 : headWs (collapseWs (trimL l)) = false := headWs_cwGo false (trimL_headWs l)
  have e4 : lastWs (collapseWs (trimL l)) = false := lastWs_cwGo _ false (trimL_lastWs l)
  have e5 : headWs (collapsePunct (collapseWs (trimL l))) = false := by
    rw [headWs_collapsePunct]
    exact e3
  have e6 : lastWs (collapsePunct (collapseWs (trimL l))) = false :=
    lastWs_collapsePunct e4
  have p3 : noWWB (collapsePunct (collapseWs (trimL l))) = true :=
    collapsePunct_noWW (cw_noWW _ false)
  have p4 : spaceOnlyB (collapsePunct (collapseWs (trimL l))) = true :=
    spaceOnlyB_sublist (collapsePunct_sublist _) (cw_spaceOnly _ false)
  have p5 : noDoubledB (collapsePunct (collapseWs (trimL l))) = true :=
    noDoubledB_collapsePunct _
  rw [normalizeL, trimL_id e5 e6]
  show dwbp (collapsePunct (cwGo false (collapsePunct (collapseWs (trimL l))))) = _
  rw [cw_id _ false p3 p4 (by simp), collapsePunct_id p5, dwbp_id _ h3]

/-- Witness for the amended C3 on a concrete messy-but-compliant string. -/
theorem c3_amended_idempotent_without_ws_before_punct_witness :
    noWspB "x  y.. z".data = true ∧
    normalizeL (normalizeL "x  y.. z".data) = normalizeL "x  y.. z".data :=
  ⟨by decide, c3_amended_idempotent_without_ws_before_punct "x  y.. z".data (by decide)⟩

/-! ## Claim C8 -/

/-- C8 (counterexample to the claim as stated): overriding the author of a
record whose resolved author is "Doe" with "John Doe" produces the MLA
citation "John Doe." — it contains the override value, but it also still
contains the original resolved author text "Doe", so "and not the original
resolved author" fails. -/
theorem c8_counterexample_original_author_text_can_appear :
    get_citation_metadata ⟨some "u", none, some "Doe", none, none⟩ "mla" true true
        (fun k => if k = "author" then some "John Doe" else none)
        ⟨5, 3, 2024⟩ ⟨5, 3, 2024⟩ =
      GenResult.record
        ⟨some "John Doe.", some "mla", some "u", none, some "John Doe", none, none,
          none⟩ ∧
    "Doe".data <:+: "John Doe.".data := by
  constructor
  · rfl
  · decide

theorem apply_overrides_url (wm : WebPageDetails) (ov : String → Option String) :
    (apply_overrides wm ov).url = wm.url := by
  simp only [apply_overrides]
  cases ov "author" <;> cases ov "title" <;> cases ov "publisher" <;>
    cases ov "pub_date" <;> rfl

theorem apply_overrides_author (wm : WebPageDetails) (ov : String → Option String) :
    (apply_overrides wm ov).author =
      (match ov "author" with | some v => some v | none => wm.author) := by
  simp only [apply_overrides]
  cases ov "author" <;> cases ov "title" <;> cases ov "publisher" <;>
    cases ov "pub_date" <;> rfl

theorem apply_overrides_title (wm : WebPageDetails) (ov : String → Option String) :
    (apply_overrides wm ov).title =
      (match ov "title" with | some v => some v | none => wm.title) := by
  simp only [apply_overrides]
  cases ov "author" <;> cases ov "title" <;> cases ov "publisher" <;>
    cases ov "pub_date" <;> rfl

theorem apply_overrides_publisher (wm : WebPageDetails) (ov : String → Option String) :
    (apply_overrides wm ov).publisher =
      (match ov "publisher" with | some v => some v | none => wm.publisher) := by
  simp only [apply_overrides]
  cases ov "author" <;> cases ov "title" <;> cases ov "publisher" <;>
    cases ov "pub_date" <;> rfl

theorem apply_overrides_date_published (wm : WebPageDetails)
    (ov : String → Option String) :
    (apply_overrides wm ov).date_published =
      (match ov "pub_date" with | some v => some v | none => wm.date_published) := by
  simp only [apply_overrides]
  cases ov "author" <;> cases ov "title" <;> cases ov "publisher" <;>
    cases ov "pub_date" <;> rfl

/-- C8 (amended): `apply_overrides` recognizes exactly the keys author,
title, publisher and pub_date (the last mapping to `date_published`); a
recognized key fully replaces that one field, every other field (including
url) stays unchanged, any other key has no effect (a record overridden
with none of the four keys present is returned unchanged, and two override
maps agreeing on the four keys act identically); formatting an
author-overridden record in any style is independent of the original
resolved author value, and with the claim's example value "John Doe" the
citation text contains "John Doe" in every one of the five styles (though
the original author's text may still coincide with other text, as the
counterexample shows). -/
theorem c8_amended_overrides (wm : WebPageDetails) (ov : String → Option String) :
    (apply_overrides wm ov).url = wm.url ∧
    ((apply_overrides wm ov).author =
      (match ov "author" with | some v => some v | none => wm.author)) ∧
    ((apply_overrides wm ov).title =
      (match ov "title" with | some v => some v | none => wm.title)) ∧
    ((apply_overrides wm ov).publisher =
      (match ov "publisher" with | some v => some v | none => wm.publisher)) ∧
    ((apply_overrides wm ov).date_published =
      (match ov "pub_date" with | some v => some v | none => wm.date_published)) ∧
    (∀ ov' : String → Option String, ov' "author" = ov "author" →
      ov' "title" = ov "title" → ov' "publisher" = ov "publisher" →
      ov' "pub_date" = ov "pub_date" → apply_overrides wm ov' = apply_overrides wm ov) ∧
    (ov "author" = none → ov "title" = none → ov "publisher" = none →
      ov "pub_date" = none → apply_overrides wm ov = wm) ∧
    (∀ (fmt : String) (nd nu : Bool) (t1 t2 : Date) (a' : Option String),
      ov "author" = some "John Doe" →
      get_citation_metadata { wm with author := a' } fmt nd nu ov t1 t2 =
        get_citation_metadata wm fmt nd nu ov t1 t2) ∧
    (∀ (fmt : String) (nd nu : Bool) (t1 t2 : Date),
      ov "author" = some "John Doe" → pyLower fmt ∈ supportedStyles →
      ∃ m c, get_citation_metadata wm fmt nd nu ov t1 t2 = GenResult.record m ∧
        m.citation = some c ∧ "John Doe".data <:+: c.data) := by
  refine ⟨apply_overrides_url wm ov, apply_overrides_author wm ov,
    apply_overrides_title wm ov, apply_overrides_publisher wm ov,
    apply_overrides_date_published wm ov, ?_, ?_, ?_, ?_⟩
  · intro ov' ha ht hp hd
    simp only [apply_overrides, ha, ht, hp, hd]
  · intro ha ht hp hd
    simp only [apply_overrides, ha, ht, hp, hd]
  · intro fmt nd nu t1 t2 a' ha
    rw [get_citation_metadata, get_citation_metadata]
    congr 1
    cases wm
    cases ht : ov "title" <;> cases hp : ov "publisher" <;> cases hd : ov "pub_date" <;>
      simp [apply_overrides, ha, ht, hp, hd]
  · intro fmt nd nu t1 t2 ha hsty
    have hau : (apply_overrides wm ov).author = some "John Doe" := by
      rw [apply_overrides_author, ha]
    have hst : stableW "John Doe".data := by decide
    simp only [supportedStyles, List.mem_cons, List.mem_singleton, List.not_mem_nil,
      or_false] at hsty
    rw [get_citation_metadata]
    rcases hsty with h | h | h | h | h
    · rw [gc_eq_apa h]
      refine ⟨_, _, rfl, rfl, ?_⟩
      apply citation_word_surv hst (p := pystr (apply_overrides wm ov).author)
      · rw [hau]
        simp [optIf, truthy, pystr]
      · rw [hau]
        decide
      · rw [hau]
        exact List.infix_refl _
    · rw [gc_eq_mla h]
      refine ⟨_, _, rfl, rfl, ?_⟩
      apply citation_word_surv hst
        (p := pystr (apply_overrides wm ov).author ++ ".".data)
      · rw [hau]
        simp [optIf, truthy, pystr]
      · rw [hau]
        decide
      · rw [hau]
        exact (List.prefix_append _ _).isInfix
    · rw [gc_eq_chicago h]
      refine ⟨_, _, rfl, rfl, ?_⟩
      apply citation_word_surv hst
        (p := pystr (apply_overrides wm ov).author ++ ".".data)
      · rw [hau]
        simp [optIf, truthy, pystr]
      · rw [hau]
        decide
      · rw [hau]
        exact (List.prefix_append _ _).isInfix
    · rw [gc_eq_ieee h]
      refine ⟨_, _, rfl, rfl, ?_⟩
      apply citation_word_surv hst
        (p := pystr (apply_overrides wm ov).author ++ ",".data)
      · rw [hau]
        simp [optIf, truthy, pystr]
      · rw [hau]
        decide
      · rw [hau]
        exact (List.prefix_append _ _).isInfix
    · rw [gc_eq_harvard h]
      refine ⟨_, _, rfl, rfl, ?_⟩
      apply citation_word_surv hst
        (p := pystr (apply_overrides wm ov).author ++ ",".data)
      · rw [hau]
        simp [optIf, truthy, pystr]
      · rw [hau]
        decide
      · rw [hau]
        exact (List.prefix_append _ _).isInfix

/-- Witness for the amended C8 on its own counterexample record. -/
theorem c8_amended_overrides_witness :
    ((fun k => if k = "author" then some "John Doe" else none : String → Option String)
      "author" = some "John Doe") ∧
    (∃ m c, get_citation_metadata ⟨some "u", none, some "Doe", none, none⟩ "mla" true true
        (fun k => if k = "author" then some "John Doe" else none)
        ⟨5, 3, 2024⟩ ⟨5, 3, 2024⟩ = GenResult.record m ∧
      m.citation = some c ∧ "John Doe".data <:+: c.data) := by
  refine ⟨by decide, ?_⟩
  exact (c8_amended_overrides ⟨some "u", none, some "Doe", none, none⟩
    (fun k => if k = "author" then some "John Doe" else none)).2.2.2.2.2.2.2.2
    "mla" true true ⟨5, 3, 2024⟩ ⟨5, 3, 2024⟩ (by decide) (by decide)

/-! ## Claim C5 -/

/-- The optional field `o`, when present, does not contain the word `w`. -/
def avoidsW (o : Option String) (w : List Char) : Prop :=
  ∀ s, o = some s → ¬ (w <:+: s.data)

theorem avoidsW_some {x : String} {w : List Char} (h : ¬ (w <:+: x.data)) :
    avoidsW (some x) w := by
  intro s hs
  cases hs
  exact h

theorem avoidsW_none {w : List Char} : avoidsW none w := fun s hs => by cases hs

theorem avoidsW_pystr {o : Option String} {w : List Char} (h : avoidsW o w)
    (hn : ¬ (w <:+: "None".data)) : ¬ (w <:+: pystr o) := by
  cases ho : o with
  | none => simpa [pystr] using hn
  | some s => simpa [pystr] using h s ho

/-- A word cannot occur in a string all of whose characters it excludes. -/
theorem notin_hostile {w l : List Char} (hne : w ≠ []) (h : ∀ c ∈ l, c ∉ w) :
    ¬ w <:+: l := by
  intro hocc
  rcases w with _ | ⟨a, w'⟩
  · exact hne rfl
  · exact h a (hocc.subset (List.mem_cons_self a w')) (List.mem_cons_self a w')

theorem block_head {y w : List Char} (h : ∀ c ∈ y, c ∉ w) :
    ∀ c, y.head? = some c → c ∉ w := fun c hc => h c (List.mem_of_mem_head? hc)

theorem block_last {x w : List Char} (h : ∀ c ∈ x, c ∉ w) :
    ∀ c, x.getLast? = some c → c ∉ w := fun c hc => h c (List.mem_of_mem_getLast? hc)

/-- A value followed by hostile fixed text. -/
theorem notin_v_post {w v post : List Char} (hne : w ≠ []) (hv : ¬ w <:+: v)
    (hpost : ∀ c ∈ post, c ∉ w) : ¬ w <:+: v ++ post :=
  notin_append_right_block hv (notin_hostile hne hpost) (block_head hpost)

theorem mem_optIf {p x : List Char} {b : Bool} : p ∈ optIf b x ↔ b = true ∧ p = x := by
  cases b <;> simp [optIf]

/-- The word `' '` belongs to the whitespace class. -/
theorem space_not_mem_of_wsfree {w : List Char} (hws : wsfreeB w = true) : ' ' ∉ w :=
  wsfree_not_mem hws (by decide)

/-- C5 (counterexample to the claim as stated): with the date suppressed
the citation can still contain "Accessed" when a field's own text contains
it — here the author is the string "Accessed". -/
theorem c5_counterexample_field_text_contains_accessed :
    generate_citation ⟨some "u", none, some "Accessed", none, none⟩ "mla" true true
        ⟨5, 3, 2024⟩ ⟨5, 3, 2024⟩ =
      GenResult.record
        ⟨some "Accessed.", some "mla", some "u", none, some "Accessed", none, none,
          none⟩ ∧
    "Accessed".data <:+: "Accessed.".data := by
  constructor
  · rfl
  · decide

/-- Occurrence-freedom of a word in every suppressed-date MLA clause. -/
theorem c5_parts_mla {w : List Char} {wm : WebPageDetails} {nu : Bool}
    (hne : w ≠ []) (hws : wsfreeB w = true) (hpf : punctfreeB w = true)
    (hq : '"' ∉ w) (hnone : ¬ w <:+: "None".data)
    (hu : avoidsW wm.url w) (ht : avoidsW wm.title w) (ha : avoidsW wm.author w)
    (hp : avoidsW wm.publisher w) :
    ∀ p ∈ (optIf (truthy wm.author) (pystr wm.author ++ ".".data)
        ++ optIf (truthy wm.title) ('"' :: pystr wm.title ++ ".\"".data)
        ++ optIf (truthy wm.publisher) (pystr wm.publisher)
        ++ optIf (!nu) (pystr wm.url)
        ++ optIf (truthy (none : Option String))
            ("Accessed ".data ++ pystr (none : Option String) ++ ".".data)),
      ¬ w <:+: p := by
  have hdot : ('.' : Char) ∉ w := punctfree_not_mem hpf (by decide)
  intro p hmem
  simp only [List.mem_append, mem_optIf, truthy, Bool.false_eq_true, false_and,
    or_false, false_or] at hmem
  rcases hmem with ((⟨-, rfl⟩ | ⟨-, rfl⟩) | ⟨-, rfl⟩) | ⟨-, rfl⟩
  · exact notin_v_post hne (avoidsW_pystr ha hnone) (by intro c hc; simp at hc; simp [hc, hdot])
  · refine notin_cons_notmem hq ?_ hne
    refine notin_v_post hne (avoidsW_pystr ht hnone) ?_
    intro c hc
    simp at hc
    rcases hc with rfl | rfl
    · exact hdot
    · exact hq
  · exact avoidsW_pystr hp hnone
  · exact avoidsW_pystr hu hnone

/-- Occurrence-freedom of a word in every suppressed-date APA clause. -/
theorem c5_parts_apa {w : List Char} {wm : WebPageDetails} {nu : Bool}
    (hne : w ≠ []) (hws : wsfreeB w = true) (hpf : punctfreeB w = true)
    (hnd : ¬ w <:+: "(n.d.).".data) (hfrom : ¬ w <:+: "from ".data)
    (hnone : ¬ w <:+: "None".data)
    (hu : avoidsW wm.url w) (ht : avoidsW wm.title w) (ha : avoidsW wm.author w)
    (hp : avoidsW wm.publisher w) :
    ∀ p ∈ (optIf (truthy wm.author) (pystr wm.author)
        ++ ["(n.d.).".data]
        ++ optIf (truthy wm.title) (pystr wm.title ++ ".".data)
        ++ optIf (truthy wm.publisher) (pystr wm.publisher ++ ".".data)
        ++ optIf (truthy (none : Option String))
            ("Retrieved ".data ++ pystr (none : Option String))
        ++ optIf (!nu) ("from ".data ++ pystr wm.url)),
      ¬ w <:+: p := by
  have hdot : ('.' : Char) ∉ w := punctfree_not_mem hpf (by decide)
  intro p hmem
  simp only [List.mem_append, mem_optIf, List.mem_singleton, truthy, Bool.false_eq_true,
    false_and, or_false, false_or] at hmem
  rcases hmem with (((⟨-, rfl⟩ | rfl) | ⟨-, rfl⟩) | ⟨-, rfl⟩) | ⟨-, rfl⟩
  · exact avoidsW_pystr ha hnone
  · exact hnd
  · exact notin_v_post hne (avoidsW_pystr ht hnone) (by intro c hc; simp at hc; simp [hc, hdot])
  · exact notin_v_post hne (avoidsW_pystr hp hnone) (by intro c hc; simp at hc; simp [hc, hdot])
  · refine notin_append_left_block hfrom (avoidsW_pystr hu hnone) ?_
    intro c hc
    rw [show ("from ".data).getLast? = some ' ' from by decide] at hc
    cases hc
    exact space_not_mem_of_wsfree hws

/-- Occurrence-freedom of a word in every suppressed-date Chicago clause. -/
theorem c5_parts_chicago {w : List Char} {wm : WebPageDetails} {nu : Bool}
    (hne : w ≠ []) (hws : wsfreeB w = true) (hpf : punctfreeB w = true)
    (hq : '"' ∉ w) (hnone : ¬ w <:+: "None".data)
    (hu : avoidsW wm.url w) (ht : avoidsW wm.title w) (ha : avoidsW wm.author w)
    (hp : avoidsW wm.publisher w) :
    ∀ p ∈ (optIf (truthy wm.author) (pystr wm.author ++ ".".data)
        ++ optIf (truthy wm.title) ('"' :: pystr wm.title ++ ".\"".data)
        ++ optIf (truthy wm.publisher) (pystr wm.publisher ++ ".".data)
        ++ optIf (truthy (none : Option String))
            ("Accessed ".data ++ pystr (none : Option String) ++ ".".data)
        ++ optIf (!nu) (pystr wm.url ++ ".".data)),
      ¬ w <:+: p := by
  have hdot : ('.' : Char) ∉ w := punctfree_not_mem hpf (by decide)
  intro p hmem
  simp only [List.mem_append, mem_optIf, truthy, Bool.false_eq_true, false_and,
    or_false, false_or] at hmem
  rcases hmem with ((⟨-, rfl⟩ | ⟨-, rfl⟩) | ⟨-, rfl⟩) | ⟨-, rfl⟩
  · exact notin_v_post hne (avoidsW_pystr ha hnone) (by intro c hc; simp at hc; simp [hc, hdot])
  · refine notin_cons_notmem hq ?_ hne
    refine notin_v_post hne (avoidsW_pystr ht hnone) ?_
    intro c hc
    simp at hc
    rcases hc with rfl | rfl
    · exact hdot
    · exact hq
  · exact notin_v_post hne (avoidsW_pystr hp hnone) (by intro c hc; simp at hc; simp [hc, hdot])
  · exact notin_v_post hne (avoidsW_pystr hu hnone) (by intro c hc; simp at hc; simp [hc, hdot])

/-- Occurrence-freedom of a word in every suppressed-date IEEE clause. -/
theorem c5_parts_ieee {w : List Char} {wm : WebPageDetails} {nu : Bool} {t2 : Date}
    (hne : w ≠ []) (hws : wsfreeB w = true) (hpf : punctfreeB w = true)
    (hq : '"' ∉ w) (hnone : ¬ w <:+: "None".data)
    (honline : ¬ w <:+: "[Online].".data) (havail : ¬ w <:+: "Available: ".data)
    (hu : avoidsW wm.url w) (ht : avoidsW wm.title w) (ha : avoidsW wm.author w)
    (hpp : avoidsW wm.publisher w) :
    ∀ p ∈ (optIf (truthy wm.author) (pystr wm.author ++ ",".data)
        ++ optIf (truthy wm.title) ('"' :: pystr wm.title ++ ",\"".data)
        ++ optIf (truthy wm.publisher) (pystr wm.publisher ++ ".".data)
        ++ ["[Online].".data]
        ++ optIf (!nu) ("Available: ".data ++ pystr wm.url)
        ++ optIf (truthy (none : Option String))
            ("[Accessed: ".data ++ fmtDashL t2 ++ "]".data)),
      ¬ w <:+: p := by
  have hdot : ('.' : Char) ∉ w := punctfree_not_mem hpf (by decide)
  have hcomma : (',' : Char) ∉ w := punctfree_not_mem hpf (by decide)
  intro p hmem
  simp only [List.mem_append, mem_optIf, List.mem_singleton, truthy, Bool.false_eq_true,
    false_and, or_false, false_or] at hmem
  rcases hmem with (((⟨-, rfl⟩ | ⟨-, rfl⟩) | ⟨-, rfl⟩) | rfl) | ⟨-, rfl⟩
  · exact notin_v_post hne (avoidsW_pystr ha hnone)
      (by intro c hc; simp at hc; simp [hc, hcomma])
  · refine notin_cons_notmem hq ?_ hne
    refine notin_v_post hne (avoidsW_pystr ht hnone) ?_
    intro c hc
    simp at hc
    rcases hc with rfl | rfl
    · exact hcomma
    · exact hq
  · exact notin_v_post hne (avoidsW_pystr hpp hnone) (by intro c hc; simp at hc; simp [hc, hdot])
  · exact honline
  · refine notin_append_left_block havail (avoidsW_pystr hu hnone) ?_
    intro c hc
    rw [show ("Available: ".data).getLast? = some ' ' from by decide] at hc
    cases hc
    exact space_not_mem_of_wsfree hws

/-- Occurrence-freedom of a word in every suppressed-date Harvard clause. -/
theorem c5_parts_harvard {w : List Char} {wm : WebPageDetails} {nu : Bool}
    (hne : w ≠ []) (hws : wsfreeB w = true) (hpf : punctfreeB w = true)
    (hnone : ¬ w <:+: "None".data) (havail : ¬ w <:+: "Available at: ".data)
    (hu : avoidsW wm.url w) (ht : avoidsW wm.title w) (ha : avoidsW wm.author w) :
    ∀ p ∈ (optIf (truthy wm.author) (pystr wm.author ++ ",".data)
        ++ optIf (truthy wm.title) (pystr wm.title ++ ".".data)
        ++ optIf (!nu) ("Available at: ".data ++ pystr wm.url)
        ++ optIf (truthy (none : Option String))
            ("(Accessed: ".data ++ pystr (none : Option String) ++ ")".data)),
      ¬ w <:+: p := by
  have hdot : ('.' : Char) ∉ w := punctfree_not_mem hpf (by decide)
  have hcomma : (',' : Char) ∉ w := punctfree_not_mem hpf (by decide)
  intro p hmem
  simp only [List.mem_append, mem_optIf, truthy, Bool.false_eq_true, false_and,
    or_false, false_or] at hmem
  rcases hmem with (⟨-, rfl⟩ | ⟨-, rfl⟩) | ⟨-, rfl⟩
  · exact notin_v_post hne (avoidsW_pystr ha hnone)
      (by intro c hc; simp at hc; simp [hc, hcomma])
  · exact notin_v_post hne (avoidsW_pystr ht hnone) (by intro c hc; simp at hc; simp [hc, hdot])
  · refine notin_append_left_block havail (avoidsW_pystr hu hnone) ?_
    intro c hc
    rw [show ("Available at: ".data).getLast? = some ' ' from by decide] at hc
    cases hc
    exact space_not_mem_of_wsfree hws

set_option maxHeartbeats 2000000 in
/-- C5 (amended): when the date is suppressed the citation carries no
access-date clause: provided no present field value itself contains the
words "Accessed" or "Retrieved" (the counterexample shows field text can
smuggle them in), the citation contains neither "Accessed" nor "Retrieved"
— in particular not Harvard's "(Accessed: ...)" nor IEEE's "[Accessed:" —
while for IEEE it does contain "[Online]." and, when the url is not
suppressed, "Available:". -/
theorem c5_amended_suppress_date (wm : WebPageDetails) (fmt : String) (nu : Bool)
    (t1 t2 : Date) (hsty : pyLower fmt ∈ supportedStyles)
    (hu1 : avoidsW wm.url "Accessed".data) (hu2 : avoidsW wm.url "Retrieved".data)
    (ht1 : avoidsW wm.title "Accessed".data) (ht2 : avoidsW wm.title "Retrieved".data)
    (ha1 : avoidsW wm.author "Accessed".data) (ha2 : avoidsW wm.author "Retrieved".data)
    (hp1 : avoidsW wm.publisher "Accessed".data)
    (hp2 : avoidsW wm.publisher "Retrieved".data) :
    ∃ m c, generate_citation wm fmt true nu t1 t2 = GenResult.record m ∧
      m.citation = some c ∧
      ¬ ("Accessed".data <:+: c.data) ∧ ¬ ("Retrieved".data <:+: c.data) ∧
      (pyLower fmt = "ieee" →
        "[Online].".data <:+: c.data ∧ (nu = false → "Available:".data <:+: c.data)) := by
  have hnone : (if !true then some (fmtLong t1) else none) = (none : Option String) := rfl
  simp only [supportedStyles, List.mem_cons, List.mem_singleton, List.not_mem_nil,
    or_false] at hsty
  rcases hsty with h | h | h | h | h
  · rw [gc_eq_apa h, hnone]
    refine ⟨_, _, rfl, rfl, ?_, ?_, ?_⟩
    · exact citation_word_free (w := "Accessed".data) (by decide) (by decide) (by decide)
        (c5_parts_apa (by decide) (by decide) (by decide) (by decide) (by decide)
          (by decide) hu1 ht1 ha1 hp1)
    · exact citation_word_free (w := "Retrieved".data) (by decide) (by decide) (by decide)
        (c5_parts_apa (by decide) (by decide) (by decide) (by decide) (by decide)
          (by decide) hu2 ht2 ha2 hp2)
    · intro hieee
      rw [h] at hieee
      exact absurd hieee (by decide)
  · rw [gc_eq_mla h, hnone]
    refine ⟨_, _, rfl, rfl, ?_, ?_, ?_⟩
    · exact citation_word_free (w := "Accessed".data) (by decide) (by decide) (by decide)
        (c5_parts_mla (by decide) (by decide) (by decide) (by decide) (by decide)
          hu1 ht1 ha1 hp1)
    · exact citation_word_free (w := "Retrieved".data) (by decide) (by decide) (by decide)
        (c5_parts_mla (by decide) (by decide) (by decide) (by decide) (by decide)
          hu2 ht2 ha2 hp2)
    · intro hieee
      rw [h] at hieee
      exact absurd hieee (by decide)
  · rw [gc_eq_chicago h, hnone]
    refine ⟨_, _, rfl, rfl, ?_, ?_, ?_⟩
    · exact citation_word_free (w := "Accessed".data) (by decide) (by decide) (by decide)
        (c5_parts_chicago (by decide) (by decide) (by decide) (by decide) (by decide)
          hu1 ht1 ha1 hp1)
    · exact citation_word_free (w := "Retrieved".data) (by decide) (by decide) (by decide)
        (c5_parts_chicago (by decide) (by decide) (by decide) (by decide) (by decide)
          hu2 ht2 ha2 hp2)
    · intro hieee
      rw [h] at hieee
      exact absurd hieee (by decide)
  · rw [gc_eq_ieee h, hnone]
    refine ⟨_, _, rfl, rfl, ?_, ?_, ?_⟩
    · exact citation_word_free (w := "Accessed".data) (by decide) (by decide) (by decide)
        (c5_parts_ieee (by decide) (by decide) (by decide) (by decide) (by decide)
          (by decide) (by decide) hu1 ht1 ha1 hp1)
    · exact citation_word_free (w := "Retrieved".data) (by decide) (by decide) (by decide)
        (c5_parts_ieee (by decide) (by decide) (by decide) (by decide) (by decide)
          (by decide) (by decide) hu2 ht2 ha2 hp2)
    · intro _
      constructor
      · refine citation_word_surv (by decide) (p := "[Online].".data) ?_ (by decide)
          (List.infix_refl _)
        simp [mem_optIf]
      · intro hnu
        subst hnu
        refine citation_word_surv (by decide)
          (p := "Available: ".data ++ pystr wm.url) ?_ (by simp) ?_
        · simp [mem_optIf]
        · exact ((by decide : "Available:".data <+: "Available: ".data).trans
            (List.prefix_append _ _)).isInfix
  · rw [gc_eq_harvard h, hnone]
    refine ⟨_, _, rfl, rfl, ?_, ?_, ?_⟩
    · exact citation_word_free (w := "Accessed".data) (by decide) (by decide) (by decide)
        (c5_parts_harvard (by decide) (by decide) (by decide) (by decide) (by decide)
          hu1 ht1 ha1)
    · exact citation_word_free (w := "Retrieved".data) (by decide) (by decide) (by decide)
        (c5_parts_harvard (by decide) (by decide) (by decide) (by decide) (by decide)
          hu2 ht2 ha2)
    · intro hieee
      rw [h] at hieee
      exact absurd hieee (by decide)

/-- Witness for the amended C5: IEEE, date suppressed, url kept. -/
theorem c5_amended_suppress_date_witness :
    ∃ m c, generate_citation ⟨some "http://x", some "T", some "Au", some "P", none⟩
        "IEEE" true false ⟨5, 3, 2024⟩ ⟨6, 3, 2024⟩ = GenResult.record m ∧
      m.citation = some c ∧
      ¬ ("Accessed".data <:+: c.data) ∧ ¬ ("Retrieved".data <:+: c.data) ∧
      (pyLower "IEEE" = "ieee" →
        "[Online].".data <:+: c.data ∧ (false = false → "Available:".data <:+: c.data)) :=
  c5_amended_suppress_date ⟨some "http://x", some "T", some "Au", some "P", none⟩
    "IEEE" false ⟨5, 3, 2024⟩ ⟨6, 3, 2024⟩ (by decide)
    (avoidsW_some (by decide)) (avoidsW_some (by decide))
    (avoidsW_some (by decide)) (avoidsW_some (by decide))
    (avoidsW_some (by decide)) (avoidsW_some (by decide))
    (avoidsW_some (by decide)) (avoidsW_some (by decide))

/-! ## Claim C1 -/

theorem getD_mem_cons {α : Type} (l : List α) (n : Nat) (d : α) : l.getD n d ∈ d :: l := by
  induction l generalizing n with
  | nil => simp [List.getD]
  | cons a t ih =>
    cases n with
    | zero => simp [List.getD]
    | succ k =>
      rw [List.getD_cons_succ]
      rcases List.mem_cons.mp (ih k) with h | h
      · exact List.mem_cons.mpr (Or.inl h)
      · exact List.mem_cons.mpr (Or.inr (List.mem_cons.mpr (Or.inr h)))

theorem digitChar_mem (d : Nat) : digitChar d ∈ digitChars := by
  show digitChars.getD d '0' ∈ digitChars
  rcases List.mem_cons.mp (getD_mem_cons digitChars d '0') with h | h
  · rw [h]; decide
  · exact h

theorem pad2L_subset (n : Nat) : ∀ c ∈ pad2L n, c ∈ digitChars := by
  intro c hc
  simp only [pad2L, List.mem_cons, List.not_mem_nil, or_false] at hc
  rcases hc with rfl | rfl <;> exact digitChar_mem _

theorem year4L_subset (y : Nat) : ∀ c ∈ year4L y, c ∈ digitChars := by
  intro c hc
  simp only [year4L, List.mem_cons, List.not_mem_nil, or_false] at hc
  rcases hc with rfl | rfl | rfl | rfl <;> exact digitChar_mem _

theorem digit_not_ws {c : Char} (h : c ∈ digitChars) : isWsC c = false := by
  fin_cases h <;> decide

theorem digit_not_punct {c : Char} (h : c ∈ digitChars) : isPunctC c = false := by
  fin_cases h <;> decide

theorem monthNameL_cases (m : Nat) :
    ∃ s, s ∈ ["", "January", "February", "March", "April", "May", "June", "July",
      "August", "September", "October", "November", "December"] ∧ monthNameL m = s.data :=
  ⟨_, getD_mem_cons monthNames (m - 1) "", rfl⟩

theorem monthAbbrL_cases (m : Nat) :
    ∃ s, s ∈ ["", "Jan", "Feb", "Mar", "Apr", "May", "Jun", "Jul", "Aug", "Sep",
      "Oct", "Nov", "Dec"] ∧ monthAbbrL m = s.data :=
  ⟨_, getD_mem_cons monthAbbrs (m - 1) "", rfl⟩

/-- Every possible `%B` month name is punctuation-free, whitespace-free, and
contains neither "None" nor "null". -/
theorem monthNameL_facts (m : Nat) :
    punctfreeB (monthNameL m) = true ∧ wsfreeB (monthNameL m) = true ∧
    ¬ ("None".data <:+: monthNameL m) ∧ ¬ ("null".data <:+: monthNameL m) := by
  obtain ⟨s, hs, he⟩ := monthNameL_cases m
  rw [he]
  fin_cases hs <;> exact ⟨by decide, by decide, by decide, by decide⟩

/-- Every possible `%b` month abbreviation is punctuation-free,
whitespace-free, and contains neither "None" nor "null". -/
theorem monthAbbrL_facts (m : Nat) :
    punctfreeB (monthAbbrL m) = true ∧ wsfreeB (monthAbbrL m) = true ∧
    ¬ ("None".data <:+: monthAbbrL m) ∧ ¬ ("null".data <:+: monthAbbrL m) := by
  obtain ⟨s, hs, he⟩ := monthAbbrL_cases m
  rw [he]
  fin_cases hs <;> exact ⟨by decide, by decide, by decide, by decide⟩

theorem punctfree_of_forall {l : List Char} (h : ∀ c ∈ l, isPunctC c = false) :
    punctfreeB l = true := by
  simp only [punctfreeB, List.all_eq_true]
  intro c hc
  simp [h c hc]

theorem punctfree_mem {l : List Char} (h : punctfreeB l = true) {c : Char} (hc : c ∈ l) :
    isPunctC c = false := by
  have := List.all_eq_true.mp h c hc
  simpa using this

theorem punctfreeB_append {x y : List Char} :
    punctfreeB (x ++ y) = (punctfreeB x && punctfreeB y) := by
  simp [punctfreeB, List.all_append]

theorem noWspB_of_punctfree {l : List Char} (h : punctfreeB l = true) : noWspB l = true := by
  induction l with
  | nil => rfl
  | cons a t ih =>
    have h1 : ((!isPunctC a) && punctfreeB t) = true := h
    have htl := (Bool.and_eq_true_iff.mp h1).2
    have hh : headPunct t = false := headPunct_of_punctfree htl
    rw [noWspB_cons, ih htl, hh]
    simp

theorem headPunct_append_left {x y : List Char} (h : x ≠ []) :
    headPunct (x ++ y) = headPunct x := by
  cases x with
  | nil => exact absurd rfl h
  | cons a t => rfl

theorem lastWs_append_right {x y : List Char} (h : y ≠ []) : lastWs (x ++ y) = lastWs y := by
  rw [lastWs, lastWs, List.getLast?_append_of_ne_nil x h]

theorem year4L_ne_nil (y : Nat) : year4L y ≠ [] := by simp [year4L]

theorem year4L_lastWs (y : Nat) : lastWs (year4L y) = false := by
  have h : (year4L y).getLast? = some (digitChar (y % 10)) := by simp [year4L]
  rw [lastWs, h]
  simpa using digit_not_ws (digitChar_mem (y % 10))

theorem fmtLongL_punctfree (t : Date) : punctfreeB (fmtLongL t) = true := by
  apply punctfree_of_forall
  intro c hc
  rw [fmtLongL] at hc
  simp only [List.mem_append, List.mem_cons] at hc
  rcases hc with hc | rfl | hc | rfl | hc
  · exact digit_not_punct (pad2L_subset _ _ hc)
  · decide
  · exact punctfree_mem (monthNameL_facts t.month).1 hc
  · decide
  · exact digit_not_punct (year4L_subset _ _ hc)

theorem fmtDashL_punctfree (t : Date) : punctfreeB (fmtDashL t) = true := by
  apply punctfree_of_forall
  intro c hc
  rw [fmtDashL] at hc
  simp only [List.mem_append, List.mem_cons] at hc
  rcases hc with hc | rfl | hc | rfl | hc
  · exact digit_not_punct (pad2L_subset _ _ hc)
  · decide
  · exact punctfree_mem (monthAbbrL_facts t.month).1 hc
  · decide
  · exact digit_not_punct (year4L_subset _ _ hc)

theorem fmtLongL_lastWs (t : Date) : lastWs (fmtLongL t) = false := by
  rw [fmtLongL]
  rw [show (' ' :: (monthNameL t.month ++ ' ' :: year4L t.year)) =
      ([' '] ++ (monthNameL t.month ++ ([' '] ++ year4L t.year))) from rfl]
  rw [lastWs_append_right (by simp), lastWs_append_right (by simp [year4L]),
    lastWs_append_right (by simp [year4L]), lastWs_append_right (year4L_ne_nil t.year)]
  exact year4L_lastWs t.year

/-- A word containing a non-digit character, avoiding the space character,
and not occurring in any `%B` month name cannot occur in a `%d %B %Y`
date rendering. -/
theorem word_notin_fmtLongL {w : List Char} {t : Date} {c : Char}
    (hc : c ∈ w) (hcd : c ∉ digitChars) (hsp : ' ' ∉ w)
    (hm : ¬ w <:+: monthNameL t.month) : ¬ w <:+: fmtLongL t := by
  have hne : w ≠ [] := by
    intro h
    rw [h] at hc
    exact absurd hc (List.not_mem_nil c)
  have hpad : ¬ w <:+: pad2L t.day :=
    notin_of_missing_char hc (fun h => hcd (pad2L_subset _ _ h))
  have hyr : ¬ w <:+: year4L t.year :=
    notin_of_missing_char hc (fun h => hcd (year4L_subset _ _ h))
  rw [fmtLongL]
  refine notin_append_right_block hpad ?_ ?_
  · refine notin_cons_notmem hsp ?_ hne
    refine notin_append_right_block hm ?_ ?_
    · exact notin_cons_notmem hsp hyr hne
    · intro d hd
      rw [show (' ' :: year4L t.year).head? = some ' ' from rfl] at hd
      cases hd
      exact hsp
  · intro d hd
    rw [show ((' ' :: (monthNameL t.month ++ ' ' :: year4L t.year))).head? = some ' '
      from rfl] at hd
    cases hd
    exact hsp

/-- A word containing a non-digit character, avoiding the dash character,
and not occurring in any `%b` month abbreviation cannot occur in a
`%d-%b-%Y` date rendering. -/
theorem word_notin_fmtDashL {w : List Char} {t : Date} {c : Char}
    (hc : c ∈ w) (hcd : c ∉ digitChars) (hsp : '-' ∉ w)
    (hm : ¬ w <:+: monthAbbrL t.month) : ¬ w <:+: fmtDashL t := by
  have hne : w ≠ [] := by
    intro h
    rw [h] at hc
    exact absurd hc (List.not_mem_nil c)
  have hpad : ¬ w <:+: pad2L t.day :=
    notin_of_missing_char hc (fun h => hcd (pad2L_subset _ _ h))
  have hyr : ¬ w <:+: year4L t.year :=
    notin_of_missing_char hc (fun h => hcd (year4L_subset _ _ h))
  rw [fmtDashL]
  refine notin_append_right_block hpad ?_ ?_
  · refine notin_cons_notmem hsp ?_ hne
    refine notin_append_right_block hm ?_ ?_
    · exact notin_cons_notmem hsp hyr hne
    · intro d hd
      rw [show ('-' :: year4L t.year).head? = some '-' from rfl] at hd
      cases hd
      exact hsp
  · intro d hd
    rw [show (('-' :: (monthAbbrL t.month ++ '-' :: year4L t.year))).head? = some '-'
      from rfl] at hd
    cases hd
    exact hsp

/-- The hygiene properties of a single citation clause needed for C1: it
contains neither "None" nor "null", and it has no whitespace-before-punct
pair and no leading `,`/`.` (so normalization cannot manufacture doubled
punctuation from it). -/
def partOk (p : List Char) : Prop :=
  ¬ ("None".data <:+: p) ∧ ¬ ("null".data <:+: p) ∧
    noWspB p = true ∧ headPunct p = false

/-- The hygiene hypotheses C1 places on an optional metadata field: when
present, its text contains neither "None" nor "null", has no
whitespace-before-punct pair, does not start with `,`/`.`, and does not end
in whitespace. -/
def fieldOk (o : Option String) : Prop :=
  avoidsW o "None".data ∧ avoidsW o "null".data ∧
    ∀ s, o = some s →
      noWspB s.data = true ∧ headPunct s.data = false ∧ lastWs s.data = false

theorem fieldOk_some {x : String} (h1 : ¬ ("None".data <:+: x.data))
    (h2 : ¬ ("null".data <:+: x.data)) (h3 : noWspB x.data = true)
    (h4 : headPunct x.data = false) (h5 : lastWs x.data = false) : fieldOk (some x) :=
  ⟨avoidsW_some h1, avoidsW_some h2, fun s hs => by cases hs; exact ⟨h3, h4, h5⟩⟩

theorem truthy_some {o : Option String} (h : truthy o = true) :
    ∃ s, o = some s ∧ s.data ≠ [] := by
  cases o with
  | none => simp [truthy] at h
  | some s =>
    refine ⟨s, rfl, ?_⟩
    intro h0
    have h1 : (!s.data.isEmpty) = true := h
    rw [h0] at h1
    simp at h1

/-- A present, truthy field followed by fixed punctuation text is a
hygienic clause. -/
theorem partOk_v_post {o : Option String} {post : List Char}
    (htr : truthy o = true) (h : fieldOk o)
    (hp1 : ∀ c ∈ post, c ∉ "None".data) (hp2 : ∀ c ∈ post, c ∉ "null".data)
    (hp3 : noWspB post = true) :
    partOk (pystr o ++ post) := by
  obtain ⟨s, rfl, hdne⟩ := truthy_some htr
  obtain ⟨hw, hh, hl⟩ := h.2.2 s rfl
  show partOk (s.data ++ post)
  refine ⟨?_, ?_, ?_, ?_⟩
  · exact notin_v_post (by decide) (h.1 s rfl) hp1
  · exact notin_v_post (by decide) (h.2.1 s rfl) hp2
  · exact noWspB_append hw hp3 (Or.inl hl)
  · rw [headPunct_append_left hdne]
    exact hh

/-- A present, truthy field without appended text is a hygienic clause. -/
theorem partOk_field_bare {o : Option String} (htr : truthy o = true) (h : fieldOk o) :
    partOk (pystr o) := by
  obtain ⟨s, rfl, hdne⟩ := truthy_some htr
  obtain ⟨hw, hh, hl⟩ := h.2.2 s rfl
  exact ⟨h.1 s rfl, h.2.1 s rfl, hw, hh⟩

/-- A quoted truthy field (MLA/Chicago/IEEE title clause) is a hygienic
clause. -/
theorem partOk_q_post {o : Option String} {post : List Char}
    (htr : truthy o = true) (h : fieldOk o)
    (hp1 : ∀ c ∈ post, c ∉ "None".data) (hp2 : ∀ c ∈ post, c ∉ "null".data)
    (hp3 : noWspB post = true) :
    partOk ('"' :: pystr o ++ post) := by
  obtain ⟨s, rfl, hdne⟩ := truthy_some htr
  obtain ⟨hw, hh, hl⟩ := h.2.2 s rfl
  show partOk (('"' :: s.data) ++ post)
  have hq1 : noWspB ('"' :: s.data) = true := by
    rw [noWspB_cons, show isWsC '"' = false from by decide]
    simp [hw]
  have hq2 : lastWs ('"' :: s.data) = false := by
    rw [show ('"' :: s.data) = (['"'] ++ s.data) from rfl, lastWs_append_right hdne]
    exact hl
  refine ⟨?_, ?_, ?_, ?_⟩
  · exact notin_v_post (by decide) (notin_cons_notmem (by decide) (h.1 s rfl) (by decide)) hp1
  · exact notin_v_post (by decide) (notin_cons_notmem (by decide) (h.2.1 s rfl) (by decide)) hp2
  · exact noWspB_append hq1 hp3 (Or.inl hq2)
  · rw [headPunct_append_left (List.cons_ne_nil _ _)]
    rfl

/-- A space-terminated fixed prefix followed by a present field (the url
clauses "from ...", "Available: ...", "Available at: ...") is a hygienic
clause. -/
theorem partOk_pre_v {pre : List Char} {o : Option String}
    (htr : truthy o = true) (h : fieldOk o)
    (hpN : ¬ ("None".data <:+: pre)) (hpU : ¬ ("null".data <:+: pre))
    (hlast : pre.getLast? = some ' ') (hpw : noWspB pre = true)
    (hpne : pre ≠ []) (hph : headPunct pre = false) :
    partOk (pre ++ pystr o) := by
  obtain ⟨s, rfl, hdne⟩ := truthy_some htr
  obtain ⟨hw, hh, hl⟩ := h.2.2 s rfl
  show partOk (pre ++ s.data)
  refine ⟨?_, ?_, ?_, ?_⟩
  · refine notin_append_left_block hpN (h.1 s rfl) ?_
    intro c hc
    rw [hlast] at hc
    cases hc
    decide
  · refine notin_append_left_block hpU (h.2.1 s rfl) ?_
    intro c hc
    rw [hlast] at hc
    cases hc
    decide
  · exact noWspB_append hpw hw (Or.inr hh)
  · rw [headPunct_append_left hpne]
    exact hph

theorem notin_none_fmtLongL (t : Date) : ¬ ("None".data <:+: fmtLongL t) :=
  word_notin_fmtLongL (show ('N' : Char) ∈ "None".data from by decide) (by decide)
    (by decide) (monthNameL_facts t.month).2.2.1

theorem notin_null_fmtLongL (t : Date) : ¬ ("null".data <:+: fmtLongL t) :=
  word_notin_fmtLongL (show ('n' : Char) ∈ "null".data from by decide) (by decide)
    (by decide) (monthNameL_facts t.month).2.2.2

theorem notin_none_fmtDashL (t : Date) : ¬ ("None".data <:+: fmtDashL t) :=
  word_notin_fmtDashL (show ('N' : Char) ∈ "None".data from by decide) (by decide)
    (by decide) (monthAbbrL_facts t.month).2.2.1

theorem notin_null_fmtDashL (t : Date) : ¬ ("null".data <:+: fmtDashL t) :=
  word_notin_fmtDashL (show ('n' : Char) ∈ "null".data from by decide) (by decide)
    (by decide) (monthAbbrL_facts t.month).2.2.2

/-- The APA "Retrieved ..." access-date clause is hygienic. -/
theorem partOk_retrieved (t : Date) :
    partOk ("Retrieved ".data ++ pystr (some (fmtLong t))) := by
  show partOk ("Retrieved ".data ++ fmtLongL t)
  refine ⟨?_, ?_, ?_, ?_⟩
  · refine notin_append_left_block (by decide) (notin_none_fmtLongL t) ?_
    intro c hc
    rw [show ("Retrieved ".data).getLast? = some ' ' from by decide] at hc
    cases hc
    decide
  · refine notin_append_left_block (by decide) (notin_null_fmtLongL t) ?_
    intro c hc
    rw [show ("Retrieved ".data).getLast? = some ' ' from by decide] at hc
    cases hc
    decide
  · apply noWspB_of_punctfree
    rw [punctfreeB_append, fmtLongL_punctfree,
      show punctfreeB "Retrieved ".data = true from by decide]
    rfl
  · rw [headPunct_append_left (by decide : "Retrieved ".data ≠ [])]
    decide

/-- The MLA/Chicago "Accessed ...." access-date clause is hygienic. -/
theorem partOk_accessed_dot (t : Date) :
    partOk ("Accessed ".data ++ pystr (some (fmtLong t)) ++ ".".data) := by
  show partOk (("Accessed ".data ++ fmtLongL t) ++ ".".data)
  have hpf : punctfreeB ("Accessed ".data ++ fmtLongL t) = true := by
    rw [punctfreeB_append, fmtLongL_punctfree,
      show punctfreeB "Accessed ".data = true from by decide]
    rfl
  have hN : ¬ ("None".data <:+: "Accessed ".data ++ fmtLongL t) := by
    refine notin_append_left_block (by decide) (notin_none_fmtLongL t) ?_
    intro c hc
    rw [show ("Accessed ".data).getLast? = some ' ' from by decide] at hc
    cases hc
    decide
  have hU : ¬ ("null".data <:+: "Accessed ".data ++ fmtLongL t) := by
    refine notin_append_left_block (by decide) (notin_null_fmtLongL t) ?_
    intro c hc
    rw [show ("Accessed ".data).getLast? = some ' ' from by decide] at hc
    cases hc
    decide
  refine ⟨?_, ?_, ?_, ?_⟩
  · exact notin_v_post (by decide) hN (by decide)
  · exact notin_v_post (by decide) hU (by decide)
  · refine noWspB_append (noWspB_of_punctfree hpf) (by decide) (Or.inl ?_)
    rw [lastWs_append_right (fmtLongL_ne_nil t)]
    exact fmtLongL_lastWs t
  · rw [List.append_assoc, headPunct_append_left (by decide : "Accessed ".data ≠ [])]
    decide

/-- The Harvard "(Accessed: ...)" access-date clause is hygienic. -/
theorem partOk_harvard_acc (t : Date) :
    partOk ("(Accessed: ".data ++ pystr (some (fmtLong t)) ++ ")".data) := by
  show partOk (("(Accessed: ".data ++ fmtLongL t) ++ ")".data)
  have hN : ¬ ("None".data <:+: "(Accessed: ".data ++ fmtLongL t) := by
    refine notin_append_left_block (by decide) (notin_none_fmtLongL t) ?_
    intro c hc
    rw [show ("(Accessed: ".data).getLast? = some ' ' from by decide] at hc
    cases hc
    decide
  have hU : ¬ ("null".data <:+: "(Accessed: ".data ++ fmtLongL t) := by
    refine notin_append_left_block (by decide) (notin_null_fmtLongL t) ?_
    intro c hc
    rw [show ("(Accessed: ".data).getLast? = some ' ' from by decide] at hc
    cases hc
    decide
  refine ⟨?_, ?_, ?_, ?_⟩
  · exact notin_v_post (by decide) hN (by decide)
  · exact notin_v_post (by decide) hU (by decide)
  · apply noWspB_of_punctfree
    rw [punctfreeB_append, punctfreeB_append, fmtLongL_punctfree,
      show punctfreeB "(Accessed: ".data = true from by decide,
      show punctfreeB ")".data = true from by decide]
    rfl
  · rw [List.append_assoc, headPunct_append_left (by decide : "(Accessed: ".data ≠ [])]
    decide

/-- The IEEE "[Accessed: ...]" access-date clause is hygienic. -/
theorem partOk_ieee_acc (t : Date) :
    partOk ("[Accessed: ".data ++ fmtDashL t ++ "]".data) := by
  have hN : ¬ ("None".data <:+: "[Accessed: ".data ++ fmtDashL t) := by
    refine notin_append_left_block (by decide) (notin_none_fmtDashL t) ?_
    intro c hc
    rw [show ("[Accessed: ".data).getLast? = some ' ' from by decide] at hc
    cases hc
    decide
  have hU : ¬ ("null".data <:+: "[Accessed: ".data ++ fmtDashL t) := by
    refine notin_append_left_block (by decide) (notin_null_fmtDashL t) ?_
    intro c hc
    rw [show ("[Accessed: ".data).getLast? = some ' ' from by decide] at hc
    cases hc
    decide
  refine ⟨?_, ?_, ?_, ?_⟩
  · exact notin_v_post (by decide) hN (by decide)
  · exact notin_v_post (by decide) hU (by decide)
  · apply noWspB_of_punctfree
    rw [punctfreeB_append, punctfreeB_append, fmtDashL_punctfree,
      show punctfreeB "[Accessed: ".data = true from by decide,
      show punctfreeB "]".data = true from by decide]
    rfl
  · rw [List.append_assoc, headPunct_append_left (by decide : "[Accessed: ".data ≠ [])]
    decide

/-- The fixed APA "(n.d.)." clause is hygienic. -/
theorem partOk_nd : partOk "(n.d.).".data :=
  ⟨by decide, by decide, by decide, by decide⟩

/-- The fixed IEEE "[Online]." clause is hygienic. -/
theorem partOk_online : partOk "[Online].".data :=
  ⟨by decide, by decide, by decide, by decide⟩

/-- Hygiene of every APA clause. -/
theorem c1_parts_apa {wm : WebPageDetails} {nu b : Bool} {d : List Char}
    (hu : fieldOk wm.url) (ht : fieldOk wm.title) (ha : fieldOk wm.author)
    (hp : fieldOk wm.publisher) (hurl : truthy wm.url = true)
    (hd : b = true → partOk d) :
    ∀ p ∈ (optIf (truthy wm.author) (pystr wm.author)
        ++ ["(n.d.).".data]
        ++ optIf (truthy wm.title) (pystr wm.title ++ ".".data)
        ++ optIf (truthy wm.publisher) (pystr wm.publisher ++ ".".data)
        ++ optIf b d
        ++ optIf (!nu) ("from ".data ++ pystr wm.url)),
      partOk p := by
  intro p hmem
  simp only [List.mem_append, mem_optIf, List.mem_singleton] at hmem
  rcases hmem with ((((⟨hb, rfl⟩ | rfl) | ⟨hb, rfl⟩) | ⟨hb, rfl⟩) | ⟨hb, rfl⟩) | ⟨hb, rfl⟩
  · exact partOk_field_bare hb ha
  · exact partOk_nd
  · exact partOk_v_post hb ht (by decide) (by decide) (by decide)
  · exact partOk_v_post hb hp (by decide) (by decide) (by decide)
  · exact hd hb
  · exact partOk_pre_v hurl hu (by decide) (by decide) (by decide) (by decide)
      (by decide) (by decide)

/-- Hygiene of every MLA clause. -/
theorem c1_parts_mla {wm : WebPageDetails} {nu b : Bool} {d : List Char}
    (hu : fieldOk wm.url) (ht : fieldOk wm.title) (ha : fieldOk wm.author)
    (hp : fieldOk wm.publisher) (hurl : truthy wm.url = true)
    (hd : b = true → partOk d) :
    ∀ p ∈ (optIf (truthy wm.author) (pystr wm.author ++ ".".data)
        ++ optIf (truthy wm.title) ('"' :: pystr wm.title ++ ".\"".data)
        ++ optIf (truthy wm.publisher) (pystr wm.publisher)
        ++ optIf (!nu) (pystr wm.url)
        ++ optIf b d),
      partOk p := by
  intro p hmem
  simp only [List.mem_append, mem_optIf] at hmem
  rcases hmem with (((⟨hb, rfl⟩ | ⟨hb, rfl⟩) | ⟨hb, rfl⟩) | ⟨hb, rfl⟩) | ⟨hb, rfl⟩
  · exact partOk_v_post hb ha (by decide) (by decide) (by decide)
  · exact partOk_q_post hb ht (by decide) (by decide) (by decide)
  · exact partOk_field_bare hb hp
  · exact partOk_field_bare hurl hu
  · exact hd hb

/-- Hygiene of every Chicago clause. -/
theorem c1_parts_chicago {wm : WebPageDetails} {nu b : Bool} {d : List Char}
    (hu : fieldOk wm.url) (ht : fieldOk wm.title) (ha : fieldOk wm.author)
    (hp : fieldOk wm.publisher) (hurl : truthy wm.url = true)
    (hd : b = true → partOk d) :
    ∀ p ∈ (optIf (truthy wm.author) (pystr wm.author ++ ".".data)
        ++ optIf (truthy wm.title) ('"' :: pystr wm.title ++ ".\"".data)
        ++ optIf (truthy wm.publisher) (pystr wm.publisher ++ ".".data)
        ++ optIf b d
        ++ optIf (!nu) (pystr wm.url ++ ".".data)),
      partOk p := by
  intro p hmem
  simp only [List.mem_append, mem_optIf] at hmem
  rcases hmem with (((⟨hb, rfl⟩ | ⟨hb, rfl⟩) | ⟨hb, rfl⟩) | ⟨hb, rfl⟩) | ⟨hb, rfl⟩
  · exact partOk_v_post hb ha (by decide) (by decide) (by decide)
  · exact partOk_q_post hb ht (by decide) (by decide) (by decide)
  · exact partOk_v_post hb hp (by decide) (by decide) (by decide)
  · exact hd hb
  · exact partOk_v_post hurl hu (by decide) (by decide) (by decide)

/-- Hygiene of every IEEE clause. -/
theorem c1_parts_ieee {wm : WebPageDetails} {nu b : Bool} {d : List Char}
    (hu : fieldOk wm.url) (ht : fieldOk wm.title) (ha : fieldOk wm.author)
    (hp : fieldOk wm.publisher) (hurl : truthy wm.url = true)
    (hd : b = true → partOk d) :
    ∀ p ∈ (optIf (truthy wm.author) (pystr wm.author ++ ",".data)
        ++ optIf (truthy wm.title) ('"' :: pystr wm.title ++ ",\"".data)
        ++ optIf (truthy wm.publisher) (pystr wm.publisher ++ ".".data)
        ++ ["[Online].".data]
        ++ optIf (!nu) ("Available: ".data ++ pystr wm.url)
        ++ optIf b d),
      partOk p := by
  intro p hmem
  simp only [List.mem_append, mem_optIf, List.mem_singleton] at hmem
  rcases hmem with ((((⟨hb, rfl⟩ | ⟨hb, rfl⟩) | ⟨hb, rfl⟩) | rfl) | ⟨hb, rfl⟩) | ⟨hb, rfl⟩
  · exact partOk_v_post hb ha (by decide) (by decide) (by decide)
  · exact partOk_q_post hb ht (by decide) (by decide) (by decide)
  · exact partOk_v_post hb hp (by decide) (by decide) (by decide)
  · exact partOk_online
  · exact partOk_pre_v hurl hu (by decide) (by decide) (by decide) (by decide)
      (by decide) (by decide)
  · exact hd hb

/-- Hygiene of every Harvard clause. -/
theorem c1_parts_harvard {wm : WebPageDetails} {nu b : Bool} {d : List Char}
    (hu : fieldOk wm.url) (ht : fieldOk wm.title) (ha : fieldOk wm.author)
    (hurl : truthy wm.url = true)
    (hd : b = true → partOk d) :
    ∀ p ∈ (optIf (truthy wm.author) (pystr wm.author ++ ",".data)
        ++ optIf (truthy wm.title) (pystr wm.title ++ ".".data)
        ++ optIf (!nu) ("Available at: ".data ++ pystr wm.url)
        ++ optIf b d),
      partOk p := by
  intro p hmem
  simp only [List.mem_append, mem_optIf] at hmem
  rcases hmem with ((⟨hb, rfl⟩ | ⟨hb, rfl⟩) | ⟨hb, rfl⟩) | ⟨hb, rfl⟩
  · exact partOk_v_post hb ha (by decide) (by decide) (by decide)
  · exact partOk_v_post hb ht (by decide) (by decide) (by decide)
  · exact partOk_pre_v hurl hu (by decide) (by decide) (by decide) (by decide)
      (by decide) (by decide)
  · exact hd hb

/-- C1 (counterexample to the claim as stated): a record whose author field
text is the literal string "None" (all fields may carry arbitrary text)
formats in MLA to the citation "None.", which contains the literal
substring "None". -/
theorem c1_counterexample_field_text_none :
    generate_citation ⟨some "u", none, some "None", none, none⟩ "mla" true true
        ⟨5, 3, 2024⟩ ⟨5, 3, 2024⟩ =
      GenResult.record
        ⟨some "None.", some "mla", some "u", none, some "None", none, none, none⟩ ∧
    "None".data <:+: "None.".data := by
  constructor
  · rfl
  · decide

set_option maxHeartbeats 2000000 in
/-- C1 (amended): `generate_citation` is total (it never throws) and on the
five supported styles it returns a record for every flag combination; when
the url field is present and non-empty and every present field's text is
hygienic — it contains neither "None" nor "null" as a substring, has no
whitespace character directly followed by `,`/`.`, does not start with
`,`/`.`, and does not end in whitespace — the citation contains neither the
literal substring "None" nor "null" nor two identical adjacent `,`/`.`
characters.  (The counterexample shows the field-hygiene hypotheses are
necessary: field text can smuggle in "None" or doubled punctuation.) -/
theorem c1_amended_no_placeholder_or_doubled_punct (wm : WebPageDetails) (fmt : String)
    (nd nu : Bool) (t1 t2 : Date) (hsty : pyLower fmt ∈ supportedStyles)
    (hurl : truthy wm.url = true) (hu : fieldOk wm.url) (ht : fieldOk wm.title)
    (ha : fieldOk wm.author) (hp : fieldOk wm.publisher) :
    ∃ m c, generate_citation wm fmt nd nu t1 t2 = GenResult.record m ∧
      m.citation = some c ∧
      ¬ ("None".data <:+: c.data) ∧ ¬ ("null".data <:+: c.data) ∧
      ∀ ch, isPunctC ch = true → ¬ ([ch, ch] <:+: c.data) := by
  have hN : (if !true then some (fmtLong t1) else none) = (none : Option String) := rfl
  have hS : (if !false then some (fmtLong t1) else none) = some (fmtLong t1) := rfl
  simp only [supportedStyles, List.mem_cons, List.mem_singleton, List.not_mem_nil,
    or_false] at hsty
  rcases hsty with h | h | h | h | h
  · cases nd with
    | true =>
      rw [gc_eq_apa h, hN]
      have hps := @c1_parts_apa wm nu (truthy (none : Option String))
        ("Retrieved ".data ++ pystr (none : Option String)) hu ht ha hp hurl
        (fun hb => absurd hb (by decide))
      exact ⟨_, _, rfl, rfl,
        citation_word_free (w := "None".data) (by decide) (by decide) (by decide)
          (fun p hq => (hps p hq).1),
        citation_word_free (w := "null".data) (by decide) (by decide) (by decide)
          (fun p hq => (hps p hq).2.1),
        citation_noDoubled (fun p hq => ⟨(hps p hq).2.2.1, (hps p hq).2.2.2⟩)⟩
    | false =>
      rw [gc_eq_apa h, hS]
      have hps := @c1_parts_apa wm nu (truthy (some (fmtLong t1)))
        ("Retrieved ".data ++ pystr (some (fmtLong t1))) hu ht ha hp hurl
        (fun _ => partOk_retrieved t1)
      exact ⟨_, _, rfl, rfl,
        citation_word_free (w := "None".data) (by decide) (by decide) (by decide)
          (fun p hq => (hps p hq).1),
        citation_word_free (w := "null".data) (by decide) (by decide) (by decide)
          (fun p hq => (hps p hq).2.1),
        citation_noDoubled (fun p hq => ⟨(hps p hq).2.2.1, (hps p hq).2.2.2⟩)⟩
  · cases nd with
    | true =>
      rw [gc_eq_mla h, hN]
      have hps := @c1_parts_mla wm nu (truthy (none : Option String))
        ("Accessed ".data ++ pystr (none : Option String) ++ ".".data)
        hu ht ha hp hurl (fun hb => absurd hb (by decide))
      exact ⟨_, _, rfl, rfl,
        citation_word_free (w := "None".data) (by decide) (by decide) (by decide)
          (fun p hq => (hps p hq).1),
        citation_word_free (w := "null".data) (by decide) (by decide) (by decide)
          (fun p hq => (hps p hq).2.1),
        citation_noDoubled (fun p hq => ⟨(hps p hq).2.2.1, (hps p hq).2.2.2⟩)⟩
    | false =>
      rw [gc_eq_mla h, hS]
      have hps := @c1_parts_mla wm nu (truthy (some (fmtLong t1)))
        ("Accessed ".data ++ pystr (some (fmtLong t1)) ++ ".".data)
        hu ht ha hp hurl (fun _ => partOk_accessed_dot t1)
      exact ⟨_, _, rfl, rfl,
        citation_word_free (w := "None".data) (by decide) (by decide) (by decide)
          (fun p hq => (hps p hq).1),
        citation_word_free (w := "null".data) (by decide) (by decide) (by decide)
          (fun p hq => (hps p hq).2.1),
        citation_noDoubled (fun p hq => ⟨(hps p hq).2.2.1, (hps p hq).2.2.2⟩)⟩
  · cases nd with
    | true =>
      rw [gc_eq_chicago h, hN]
      have hps := @c1_parts_chicago wm nu (truthy (none : Option String))
        ("Accessed ".data ++ pystr (none : Option String) ++ ".".data)
        hu ht ha hp hurl (fun hb => absurd hb (by decide))
      exact ⟨_, _, rfl, rfl,
        citation_word_free (w := "None".data) (by decide) (by decide) (by decide)
          (fun p hq => (hps p hq).1),
        citation_word_free (w := "null".data) (by decide) (by decide) (by decide)
          (fun p hq => (hps p hq).2.1),
        citation_noDoubled (fun p hq => ⟨(hps p hq).2.2.1, (hps p hq).2.2.2⟩)⟩
    | false =>
      rw [gc_eq_chicago h, hS]
      have hps := @c1_parts_chicago wm nu (truthy (some (fmtLong t1)))
        ("Accessed ".data ++ pystr (some (fmtLong t1)) ++ ".".data)
        hu ht ha hp hurl (fun _ => partOk_accessed_dot t1)
      exact ⟨_, _, rfl, rfl,
        citation_word_free (w := "None".data) (by decide) (by decide) (by decide)
          (fun p hq => (hps p hq).1),
        citation_word_free (w := "null".data) (by decide) (by decide) (by decide)
          (fun p hq => (hps p hq).2.1),
        citation_noDoubled (fun p hq => ⟨(hps p hq).2.2.1, (hps p hq).2.2.2⟩)⟩
  · cases nd with
    | true =>
      rw [gc_eq_ieee h, hN]
      have hps := @c1_parts_ieee wm nu (truthy (none : Option String))
        ("[Accessed: ".data ++ fmtDashL t2 ++ "]".data)
        hu ht ha hp hurl (fun hb => absurd hb (by decide))
      exact ⟨_, _, rfl, rfl,
        citation_word_free (w := "None".data) (by decide) (by decide) (by decide)
          (fun p hq => (hps p hq).1),
        citation_word_free (w := "null".data) (by decide) (by decide) (by decide)
          (fun p hq => (hps p hq).2.1),
        citation_noDoubled (fun p hq => ⟨(hps p hq).2.2.1, (hps p hq).2.2.2⟩)⟩
    | false =>
      rw [gc_eq_ieee h, hS]
      have hps := @c1_parts_ieee wm nu (truthy (some (fmtLong t1)))
        ("[Accessed: ".data ++ fmtDashL t2 ++ "]".data)
        hu ht ha hp hurl (fun _ => partOk_ieee_acc t2)
      exact ⟨_, _, rfl, rfl,
        citation_word_free (w := "None".data) (by decide) (by decide) (by decide)
          (fun p hq => (hps p hq).1),
        citation_word_free (w := "null".data) (by decide) (by decide) (by decide)
          (fun p hq => (hps p hq).2.1),
        citation_noDoubled (fun p hq => ⟨(hps p hq).2.2.1, (hps p hq).2.2.2⟩)⟩
  · cases nd with
    | true =>
      rw [gc_eq_harvard h, hN]
      have hps := @c1_parts_harvard wm nu (truthy (none : Option String))
        ("(Accessed: ".data ++ pystr (none : Option String) ++ ")".data)
        hu ht ha hurl (fun hb => absurd hb (by decide))
      exact ⟨_, _, rfl, rfl,
        citation_word_free (w := "None".data) (by decide) (by decide) (by decide)
          (fun p hq => (hps p hq).1),
        citation_word_free (w := "null".data) (by decide) (by decide) (by decide)
          (fun p hq => (hps p hq).2.1),
        citation_noDoubled (fun p hq => ⟨(hps p hq).2.2.1, (hps p hq).2.2.2⟩)⟩
    | false =>
      rw [gc_eq_harvard h, hS]
      have hps := @c1_parts_harvard wm nu (truthy (some (fmtLong t1)))
        ("(Accessed: ".data ++ pystr (some (fmtLong t1)) ++ ")".data)
        hu ht ha hurl (fun _ => partOk_harvard_acc t1)
      exact ⟨_, _, rfl, rfl,
        citation_word_free (w := "None".data) (by decide) (by decide) (by decide)
          (fun p hq => (hps p hq).1),
        citation_word_free (w := "null".data) (by decide) (by decide) (by decide)
          (fun p hq => (hps p hq).2.1),
        citation_noDoubled (fun p hq => ⟨(hps p hq).2.2.1, (hps p hq).2.2.2⟩)⟩

/-- Witness for the amended C1: IEEE with both dates rendered, hygienic
fields. -/
theorem c1_amended_no_placeholder_or_doubled_punct_witness :
    ∃ m c, generate_citation ⟨some "http://x", some "T", some "Au", some "P", none⟩
        "IEEE" false false ⟨5, 3, 2024⟩ ⟨6, 3, 2024⟩ = GenResult.record m ∧
      m.citation = some c ∧
      ¬ ("None".data <:+: c.data) ∧ ¬ ("null".data <:+: c.data) ∧
      ∀ ch, isPunctC ch = true → ¬ ([ch, ch] <:+: c.data) :=
  c1_amended_no_placeholder_or_doubled_punct
    ⟨some "http://x", some "T", some "Au", some "P", none⟩ "IEEE" false false
    ⟨5, 3, 2024⟩ ⟨6, 3, 2024⟩ (by decide) (by decide)
    (fieldOk_some (by decide) (by decide) (by decide) (by decide) (by decide))
    (fieldOk_some (by decide) (by decide) (by decide) (by decide) (by decide))
    (fieldOk_some (by decide) (by decide) (by decide) (by decide) (by decide))
    (fieldOk_some (by decide) (by decide) (by decide) (by decide) (by decide))

end Easycit
